import Mathlib

/-!
# Chess.cpp: move legality and the turn state machine

A shallow embedding of `src/Chess.cpp`.

* A piece (`GamePiece`) is its colour (`char color`, only ever `'W'` or `'B'`) and the
  subclass it was created as (`King`, `Queen`, ...).
* The board `GamePiece *board[8][8]` is a grid of optional pieces indexed by `Fin 8`
  twice; `nullptr` is `none`.
* The C++ code indexes the grid with `int`s.  `readCell` and `writeCell` are the indexed
  accesses: they give `none` when an index lies outside `0..7` (the access is outside
  the array, so the C++ program has no defined result there).  Every function that
  reads the grid therefore returns an `Option`.
* The input of `runGame` is the list of the pairs of lines `advanceGame` reads; a line
  is the list of its `char`s.  `Chess.advanceGame` is the move attempt on the indices
  computed from a pair, `Chess.runLoop` the loop around it.
-/

/-- The colour of a piece, the `char color` of `GamePiece`: `'W'` or `'B'`. -/
inductive Color where
  | W
  | B
  deriving DecidableEq, Repr

/-- The six subclasses of `GamePiece`. -/
inductive Kind where
  | King
  | Queen
  | Bishop
  | Knight
  | Rook
  | Pawn
  deriving DecidableEq, Repr

/-- A piece: the `color` member of the base class and the subclass of the object. -/
structure GamePiece where
  color : Color
  kind : Kind
  deriving DecidableEq, Repr

/-- The virtual `getName()` of the subclasses. -/
def GamePiece.getName (p : GamePiece) : Char :=
  match p.kind with
  | .King => 'K'
  | .Queen => 'Q'
  | .Bishop => 'B'
  | .Knight => 'N'
  | .Rook => 'R'
  | .Pawn => 'P'

/-- The member `getColor()`. -/
def GamePiece.getColor (p : GamePiece) : Color := p.color

/-- The grid `GamePiece *board[8][8]`: first index the row, second the column. -/
abbrev Board := Fin 8 → Fin 8 → Option GamePiece

/-- Both indices of `board[r][c]` lie inside the array. -/
def inBounds (r c : Int) : Prop := 0 ≤ r ∧ r < 8 ∧ 0 ≤ c ∧ c < 8

instance (r c : Int) : Decidable (inBounds r c) := by
  unfold inBounds; exact inferInstance

/-- An `int` index as an array index; only used on indices in `0..7`. -/
def idx (i : Int) : Fin 8 := ⟨i.toNat % 8, Nat.mod_lt _ (by decide)⟩

/-- The read `board[r][c]`; `none` when the indices are outside the array. -/
def readCell (board : Board) (r c : Int) : Option (Option GamePiece) :=
  if inBounds r c then some (board (idx r) (idx c)) else none

/-- The write `board[r][c] = v`; `none` when the indices are outside the array. -/
def writeCell (board : Board) (r c : Int) (v : Option GamePiece) : Option Board :=
  if inBounds r c then
    some (fun i j => if i = idx r ∧ j = idx c then v else board i j)
  else none

/-- The loops of `isMoveLinear`:
`for (int i = 1; i < n; i++) if (cell(i) != nullptr) return false;` followed by
`return true;`.  The first argument is the number of iterations still to run,
`n - i` (the loop changes neither `n` nor, outside its header, `i`). -/
def linearLoop (cell : Int → Option (Option GamePiece)) : Nat → Int → Option Bool
  | 0, _ => some true
  | k + 1, i =>
    match cell i with
    | none => none
    | some (some _) => some false
    | some none => linearLoop cell k (i + 1)

/-- `GamePiece::isMoveLinear` (lines 55-103). -/
def GamePiece.isMoveLinear (sRow sCol dRow dCol : Int) (board : Board) : Option Bool :=
  if sCol = dCol then
    if sRow > dRow then
      linearLoop (fun i => readCell board (sRow - i) sCol) ((sRow - dRow) - 1).toNat 1
    else
      linearLoop (fun i => readCell board (sRow + i) sCol) ((dRow - sRow) - 1).toNat 1
  else if sRow = dRow then
    if sCol > dCol then
      linearLoop (fun i => readCell board sRow (sCol - i)) ((sCol - dCol) - 1).toNat 1
    else
      linearLoop (fun i => readCell board sRow (sCol + i)) ((dCol - sCol) - 1).toNat 1
  else some false

/-- The loop of `isMoveDiagonal`: it runs while `tmpRow != dRow`, reading
`board[tmpRow][tmpCol]` and stepping both counters.  The loop has no counted bound, so
the recursion is on fuel; `none` also stands for running out of it. -/
def diagonalLoop (board : Board) (dRow rowDirection colDirection : Int) :
    Nat → Int → Int → Option Bool
  | 0, _, _ => none
  | fuel + 1, tmpRow, tmpCol =>
    if tmpRow ≠ dRow then
      match readCell board tmpRow tmpCol with
      | none => none
      | some (some _) => some false
      | some none =>
        diagonalLoop board dRow rowDirection colDirection fuel
          (tmpRow + rowDirection) (tmpCol + colDirection)
    else some true

/-- `GamePiece::isMoveDiagonal` (lines 106-128) with the given fuel for its loop. -/
def GamePiece.isMoveDiagonalFuel (fuel : Nat) (sRow sCol dRow dCol : Int) (board : Board) :
    Option Bool :=
  if dCol - sCol = dRow - sRow ∨ dCol - sCol = sRow - dRow then
    let rowDirection : Int := if dRow - sRow > 0 then 1 else -1
    let colDirection : Int := if dCol - sCol > 0 then 1 else -1
    diagonalLoop board dRow rowDirection colDirection fuel
      (sRow + rowDirection) (sCol + colDirection)
  else some false

/-- `GamePiece::isMoveDiagonal`.  Every iteration of the loop reads a cell of a new
row, always stepping the same way, so after 8 reads inside the grid the next read is
outside it: 9 rounds of the loop test are all the loop can ever use
(`diagonalLoop_fuel`). -/
def GamePiece.isMoveDiagonal (sRow sCol dRow dCol : Int) (board : Board) : Option Bool :=
  GamePiece.isMoveDiagonalFuel 9 sRow sCol dRow dCol board

/-- `King::isLegalPieceMove` (lines 136-147). -/
def King.isLegalPieceMove (sRow sCol dRow dCol : Int) (_board : Board) : Option Bool :=
  if sRow - dRow ≤ 1 ∧ sRow - dRow ≥ -1 ∧ sCol - dCol ≤ 1 ∧ sCol - dCol ≥ -1 then
    some true
  else some false

/-- `Queen::isLegalPieceMove` (lines 162-171); `||` evaluates its right operand only
when the left one is false. -/
def Queen.isLegalPieceMove (sRow sCol dRow dCol : Int) (board : Board) : Option Bool :=
  match GamePiece.isMoveLinear sRow sCol dRow dCol board with
  | none => none
  | some true => some true
  | some false =>
    match GamePiece.isMoveDiagonal sRow sCol dRow dCol board with
    | none => none
    | some true => some true
    | some false => some false

/-- `Bishop::isLegalPieceMove` (lines 186-190). -/
def Bishop.isLegalPieceMove (sRow sCol dRow dCol : Int) (board : Board) : Option Bool :=
  GamePiece.isMoveDiagonal sRow sCol dRow dCol board

/-- `Knight::isLegalPieceMove` (lines 205-218). -/
def Knight.isLegalPieceMove (sRow sCol dRow dCol : Int) (_board : Board) : Option Bool :=
  if (dRow = sRow - 1 ∨ dRow = sRow + 1) ∧ (dCol = sCol - 2 ∨ dCol = sCol + 2) then
    some true
  else if (dRow = sRow - 2 ∨ dRow = sRow + 2) ∧ (dCol = sCol - 1 ∨ dCol = sCol + 1) then
    some true
  else some false

/-- `Rook::isLegalPieceMove` (lines 233-237). -/
def Rook.isLegalPieceMove (sRow sCol dRow dCol : Int) (board : Board) : Option Bool :=
  GamePiece.isMoveLinear sRow sCol dRow dCol board

/-- `Pawn::isLegalPieceMove` (lines 252-281); `color` is the pawn's `getColor()`.
In the occupied branch the `else` belongs to the inner `if`, the test of the
destination's colour. -/
def Pawn.isLegalPieceMove (color : Color) (sRow sCol dRow dCol : Int) (board : Board) :
    Option Bool :=
  match readCell board dRow dCol with
  | none => none
  | some none =>
    if color = Color.W then
      if sRow - 1 = dRow ∧ sCol = dCol then some true else some false
    else
      if sRow + 1 = dRow ∧ sCol = dCol then some true else some false
  | some (some destination) =>
    if sCol - 1 = dCol ∨ sCol + 1 = dCol then
      if destination.getColor = Color.W then
        if sRow + 1 = dRow then some true else some false
      else
        if sRow - 1 = dRow then some true else some false
    else some false

/-- The virtual call `isLegalPieceMove`, dispatched on the subclass of the piece. -/
def GamePiece.isLegalPieceMove (p : GamePiece) (sRow sCol dRow dCol : Int) (board : Board) :
    Option Bool :=
  match p.kind with
  | .King => King.isLegalPieceMove sRow sCol dRow dCol board
  | .Queen => Queen.isLegalPieceMove sRow sCol dRow dCol board
  | .Bishop => Bishop.isLegalPieceMove sRow sCol dRow dCol board
  | .Knight => Knight.isLegalPieceMove sRow sCol dRow dCol board
  | .Rook => Rook.isLegalPieceMove sRow sCol dRow dCol board
  | .Pawn => Pawn.isLegalPieceMove p.getColor sRow sCol dRow dCol board

/-- `GamePiece::isLegalMove` (lines 41-51), called on the piece `p`. -/
def GamePiece.isLegalMove (p : GamePiece) (sRow sCol dRow dCol : Int) (board : Board) :
    Option Bool :=
  match readCell board dRow dCol with
  | none => none
  | some none => p.isLegalPieceMove sRow sCol dRow dCol board
  | some (some destination) =>
    if p.color ≠ destination.getColor then p.isLegalPieceMove sRow sCol dRow dCol board
    else some false

/-- The constructor `GameBoard::GameBoard` (lines 303-335): its writes, in source order, on a grid
of `nullptr`. -/
def GameBoard.new : Board :=
  let put (r c : Fin 8) (p : GamePiece) (board : Board) : Board :=
    fun i j => if i = r ∧ j = c then some p else board i j
  let pawns (r : Fin 8) (color : Color) (board : Board) : Board :=
    (List.finRange 8).foldl (fun b i => put r i ⟨color, .Pawn⟩ b) board
  let board : Board := fun _ _ => none
  let board := pawns 6 .W board
  let board := put 7 0 ⟨.W, .Rook⟩ board
  let board := put 7 1 ⟨.W, .Knight⟩ board
  let board := put 7 2 ⟨.W, .Bishop⟩ board
  let board := put 7 3 ⟨.W, .King⟩ board
  let board := put 7 4 ⟨.W, .Queen⟩ board
  let board := put 7 5 ⟨.W, .Bishop⟩ board
  let board := put 7 6 ⟨.W, .Knight⟩ board
  let board := put 7 7 ⟨.W, .Rook⟩ board
  let board := pawns 1 .B board
  let board := put 0 0 ⟨.B, .Rook⟩ board
  let board := put 0 1 ⟨.B, .Knight⟩ board
  let board := put 0 2 ⟨.B, .Bishop⟩ board
  let board := put 0 3 ⟨.B, .King⟩ board
  let board := put 0 4 ⟨.B, .Queen⟩ board
  let board := put 0 5 ⟨.B, .Bishop⟩ board
  let board := put 0 6 ⟨.B, .Knight⟩ board
  let board := put 0 7 ⟨.B, .Rook⟩ board
  board

/-- The state of the class `Chess`: its board and `playerTurn`. -/
structure Chess where
  chessBoard : Board
  playerTurn : Color

/-- The constructor `Chess::Chess` (line 385) with the member `chessBoard` built by
`GameBoard::GameBoard`. -/
def Chess.new : Chess := { chessBoard := GameBoard.new, playerTurn := .W }

/-- `Chess::changePlayerTurn` (lines 476-482). -/
def Chess.changePlayerTurn (g : Chess) : Chess :=
  if g.playerTurn = Color.W then { g with playerTurn := Color.B }
  else { g with playerTurn := Color.W }

/-- The move attempt of `Chess::advanceGame` (lines 443-456) on the indices computed
from the two input tokens.  `&&` stops at its first false operand. -/
def Chess.advanceGame (g : Chess) (srcRow srcCol dstRow dstCol : Int) : Option Chess :=
  match readCell g.chessBoard srcRow srcCol with
  | none => none
  | some none => some g
  | some (some current) =>
    if current.getColor = g.playerTurn then
      match current.isLegalMove srcRow srcCol dstRow dstCol g.chessBoard with
      | none => none
      | some false => some g
      | some true =>
        match readCell g.chessBoard srcRow srcCol with
        | none => none
        | some moved =>
          match writeCell g.chessBoard dstRow dstCol moved with
          | none => none
          | some board1 =>
            match writeCell board1 srcRow srcCol none with
            | none => none
            | some board2 => some (Chess.changePlayerTurn { g with chessBoard := board2 })
    else some g

/-- The condition of the `if` of `advanceGame` (lines 445-447) holds: the source holds
a piece, it has the colour of `playerTurn`, and its `isLegalMove` returns `true`. -/
def Chess.accepts (g : Chess) (srcRow srcCol dstRow dstCol : Int) : Prop :=
  ∃ current, readCell g.chessBoard srcRow srcCol = some (some current) ∧
    current.getColor = g.playerTurn ∧
    current.isLegalMove srcRow srcCol dstRow dstCol g.chessBoard = some true

/-- The condition of the `if` of `advanceGame` (lines 445-447) fails, at its first,
second or third operand: the source is `nullptr`, or its piece has not the colour of
`playerTurn`, or `isLegalMove` returns `false`. -/
def Chess.rejects (g : Chess) (srcRow srcCol dstRow dstCol : Int) : Prop :=
  readCell g.chessBoard srcRow srcCol = some none ∨
    ∃ current, readCell g.chessBoard srcRow srcCol = some (some current) ∧
      (current.getColor ≠ g.playerTurn ∨
        current.isLegalMove srcRow srcCol dstRow dstCol g.chessBoard = some false)

instance (g : Chess) (srcRow srcCol dstRow dstCol : Int) :
    Decidable (g.accepts srcRow srcCol dstRow dstCol) :=
  match h : readCell g.chessBoard srcRow srcCol with
  | none => isFalse (fun ⟨_, hq, _⟩ => Option.noConfusion (h.symm.trans hq))
  | some none =>
    isFalse (fun ⟨_, hq, _⟩ =>
      Option.noConfusion (Option.some.inj (h.symm.trans hq)))
  | some (some current) =>
    if hc : current.getColor = g.playerTurn ∧
        current.isLegalMove srcRow srcCol dstRow dstCol g.chessBoard = some true then
      isTrue ⟨current, h, hc⟩
    else
      isFalse (fun ⟨_, hq, hh⟩ =>
        hc (Option.some.inj (Option.some.inj (h.symm.trans hq)) ▸ hh))

instance (g : Chess) (srcRow srcCol dstRow dstCol : Int) :
    Decidable (g.rejects srcRow srcCol dstRow dstCol) :=
  match h : readCell g.chessBoard srcRow srcCol with
  | none =>
    isFalse (fun hr => hr.elim (fun hq => Option.noConfusion (h.symm.trans hq))
      (fun ⟨_, hq, _⟩ => Option.noConfusion (h.symm.trans hq)))
  | some none => isTrue (Or.inl h)
  | some (some current) =>
    if hc : current.getColor ≠ g.playerTurn ∨
        current.isLegalMove srcRow srcCol dstRow dstCol g.chessBoard = some false then
      isTrue (Or.inr ⟨current, h, hc⟩)
    else
      isFalse (fun hr => hr.elim
        (fun hq => Option.noConfusion (Option.some.inj (h.symm.trans hq)))
        (fun ⟨_, hq, hh⟩ =>
          hc (Option.some.inj (Option.some.inj (h.symm.trans hq)) ▸ hh)))

/-- The count of `isGameOver` (lines 461-467): `r` and `c` run over `0..7`, the
indices of the grid, and `count` goes up on every cell that is not `nullptr` and whose
piece has `getName() == 'K'`. -/
def kingCount (board : Board) : Nat :=
  (List.finRange 8).foldl (fun count r =>
    (List.finRange 8).foldl (fun count c =>
      match board r c with
      | none => count
      | some p => if p.getName = 'K' then count + 1 else count) count) 0

/-- `Chess::isGameOver` (lines 459-473). -/
def Chess.isGameOver (g : Chess) : Bool :=
  if kingCount g.chessBoard ≠ 2 then true else false

/-- The conversion `(int)line.at(i)` of a `char` of an input line. -/
def charCode (ch : Char) : Int := (ch.toNat : Int)

/-- The check of one pair of input lines in the `do` loop of `advanceGame`
(lines 426-435): the value `goodInput` has when the loop condition is tested.  A
line is the list of its `char`s; `at` has no value on an index outside the line. -/
def goodInput (source dest : List Char) : Option Bool :=
  if source.length < 2 then some false
  else if dest.length < 2 then some false
  else
    match source[0]?, source[1]?, dest[0]?, dest[1]? with
    | some s0, some s1, some d0, some d1 =>
      if charCode s0 ≥ 65 ∧ charCode s0 ≤ 72 ∧ charCode s1 ≥ 49 ∧ charCode s1 ≤ 56 ∧
          charCode d0 ≥ 65 ∧ charCode d0 ≤ 72 ∧ charCode d1 ≥ 49 ∧ charCode d1 ≤ 56 then
        some true
      else some false
    | _, _, _, _ => none

/-- The indices `srcRow`, `srcCol`, `dstRow`, `dstCol` computed from the two input
lines (lines 438-441). -/
def inputSquares (source dest : List Char) : Option (Int × Int × Int × Int) :=
  match source[1]?, source[0]?, dest[1]?, dest[0]? with
  | some s1, some s0, some d1, some d0 =>
    some (charCode s1 - 49, charCode s0 - 65, charCode d1 - 49, charCode d0 - 65)
  | _, _, _, _ => none

/-- The `do` loop of `Chess::runGame` (lines 400-404) with the `do` loop of
`advanceGame` (lines 417-436) inside it, on the pairs of lines the input gives: a pair
that fails the check is asked again, which takes the next pair and leaves the state as
it is; a pair that passes is the move attempt, after which `isGameOver` decides
whether the loop goes on.  The result is the state the loop ends in; there is none
when the input ends before the game is over. -/
def Chess.runLoop (g : Chess) : List (List Char × List Char) → Option Chess
  | [] => none
  | (source, dest) :: rest =>
    match goodInput source dest with
    | none => none
    | some false => g.runLoop rest
    | some true =>
      match inputSquares source dest with
      | none => none
      | some (srcRow, srcCol, dstRow, dstCol) =>
        match g.advanceGame srcRow srcCol dstRow dstCol with
        | none => none
        | some g1 => if g1.isGameOver then some g1 else g1.runLoop rest

/-- `Chess::runGame` (lines 395-408): the loop, then `changePlayerTurn`, then the
`playerTurn` that is printed as the winner. -/
def Chess.runGame (g : Chess) (input : List (List Char × List Char)) : Option Color :=
  match g.runLoop input with
  | none => none
  | some g1 => some (Chess.changePlayerTurn g1).playerTurn

/-- The states `runGame` of a new game can be in when the body of its loop starts: the
state the constructor builds, and every state a move attempt on such a state gives
that `isGameOver` does not end the loop on. -/
inductive Chess.InPlay : Chess → Prop where
  | start : Chess.InPlay Chess.new
  | next {g g1 : Chess} (srcRow srcCol dstRow dstCol : Int) :
      Chess.InPlay g → g.advanceGame srcRow srcCol dstRow dstCol = some g1 →
      g1.isGameOver = false → Chess.InPlay g1

/-- The squares of the grid whose cell satisfies `P`. -/
def squaresWhere (P : Option GamePiece → Bool) (board : Board) : Finset (Fin 8 × Fin 8) :=
  Finset.univ.filter (fun sq => P (board sq.1 sq.2) = true)

/-- The cell holds a piece. -/
def isOccupied (cell : Option GamePiece) : Bool :=
  match cell with
  | none => false
  | some _ => true

/-- The cell holds a piece of kind King. -/
def isKing (cell : Option GamePiece) : Bool :=
  match cell with
  | none => false
  | some p => decide (p.kind = Kind.King)

/-- The cell holds a piece of the given colour. -/
def isOfColor (color : Color) (cell : Option GamePiece) : Bool :=
  match cell with
  | none => false
  | some p => decide (p.color = color)

/-- The cell holds a King of the given colour. -/
def isKingOf (color : Color) (cell : Option GamePiece) : Bool :=
  isKing cell && isOfColor color cell

/-- The move attempt of `advanceGame` made on each element of a list of index
quadruples `(srcRow, srcCol, dstRow, dstCol)` in turn: what a sequence of move
attempts does to a state, the terminal check left aside. -/
def Chess.attempts (g : Chess) : List (Int × Int × Int × Int) → Option Chess
  | [] => some g
  | (srcRow, srcCol, dstRow, dstCol) :: rest =>
    match g.advanceGame srcRow srcCol dstRow dstCol with
    | none => none
    | some g1 => g1.attempts rest

/-- The squares that are empty on `before` and occupied on `after`. -/
def newlyOccupied (before after : Board) : Finset (Fin 8 × Fin 8) :=
  Finset.univ.filter
    (fun sq => isOccupied (before sq.1 sq.2) = false ∧ isOccupied (after sq.1 sq.2) = true)

/-- The squares that are occupied on `before` and empty on `after`. -/
def newlyEmpty (before after : Board) : Finset (Fin 8 × Fin 8) :=
  Finset.univ.filter
    (fun sq => isOccupied (before sq.1 sq.2) = true ∧ isOccupied (after sq.1 sq.2) = false)

/-- An input of seven pairs of lines.  A White Knight goes from G8 over F6, E4 and C3
to D1, where the Black King stands (the digit `1` is row 0); between its moves Black
moves the Pawn of A2 to A3, A4 and A5. -/
def knightRaid : List (List Char × List Char) :=
  [("G8".toList, "F6".toList), ("A2".toList, "A3".toList), ("F6".toList, "E4".toList),
    ("A3".toList, "A4".toList), ("E4".toList, "C3".toList), ("A4".toList, "A5".toList),
    ("C3".toList, "D1".toList)]

/-- An input line names a square: it has at least 2 `char`s, the first in `'A'..'H'`
and the second in `'1'..'8'`. -/
def namesSquare (text : List Char) : Prop :=
  2 ≤ text.length ∧ ∃ c0 c1, text[0]? = some c0 ∧ text[1]? = some c1 ∧
    charCode 'A' ≤ charCode c0 ∧ charCode c0 ≤ charCode 'H' ∧
    charCode '1' ≤ charCode c1 ∧ charCode c1 ≤ charCode '8'

/-- The index `x` lies strictly between `a` and `b`, whichever of the two is larger. -/
def between (a x b : Int) : Prop := (a < x ∧ x < b) ∨ (b < x ∧ x < a)

/-- The square `(r, c)` lies strictly between `(sRow, sCol)` and `(dRow, dCol)` on
the column or on the row the two share. -/
def onLineBetween (sRow sCol dRow dCol r c : Int) : Prop :=
  (sCol = dCol ∧ c = sCol ∧ between sRow r dRow) ∨
    (sRow = dRow ∧ r = sRow ∧ between sCol c dCol)

/-- The square `(r, c)` lies on a diagonal through `(sRow, sCol)`, strictly between
it and `(dRow, dCol)`. -/
def onDiagonalBetween (sRow sCol dRow dCol r c : Int) : Prop :=
  between sRow r dRow ∧ between sCol c dCol ∧ |r - sRow| = |c - sCol|

/-- The number of rows of the grid from `tmpRow` on in the direction of the walk of
`diagonalLoop`, the row `tmpRow` included: 0 when `tmpRow` is outside the grid. -/
def rowsLeft (rowDirection tmpRow : Int) : Nat :=
  if 0 ≤ tmpRow ∧ tmpRow < 8 then
    if rowDirection = 1 then (8 - tmpRow).toNat else (tmpRow + 1).toNat
  else 0

/-- The shape of the move is an L: one step along the rows and two along the columns,
or two along the rows and one along the columns. -/
def isLShape (sRow sCol dRow dCol : Int) : Prop :=
  (|dRow - sRow| = 1 ∧ |dCol - sCol| = 2) ∨ (|dRow - sRow| = 2 ∧ |dCol - sCol| = 1)

instance (sRow sCol dRow dCol : Int) : Decidable (isLShape sRow sCol dRow dCol) := by
  unfold isLShape; exact inferInstance

/-- The forward direction of a pawn, as a row delta: -1 for White (towards row 0),
+1 for Black (towards row 7). -/
def forwardStep (color : Color) : Int :=
  match color with
  | .W => -1
  | .B => 1

/-! ## Grid accesses -/

theorem idx_inj {i j : Int} (hi0 : 0 ≤ i) (hi8 : i < 8) (hj0 : 0 ≤ j) (hj8 : j < 8) :
    idx i = idx j ↔ i = j := by
  constructor
  · intro h
    have hv := congrArg Fin.val h
    simp only [idx] at hv
    omega
  · intro h
    rw [h]

theorem readCell_inBounds (board : Board) {r c : Int} (h : inBounds r c) :
    readCell board r c = some (board (idx r) (idx c)) := by
  simp [readCell, h]

theorem readCell_outside (board : Board) {r c : Int} (h : ¬ inBounds r c) :
    readCell board r c = none := by
  simp [readCell, h]

theorem inBounds_of_readCell {board : Board} {r c : Int} {x : Option GamePiece}
    (h : readCell board r c = some x) : inBounds r c := by
  by_contra hn
  rw [readCell_outside board hn] at h
  exact Option.noConfusion h

theorem writeCell_inBounds (board : Board) {r c : Int} (v : Option GamePiece)
    (h : inBounds r c) :
    writeCell board r c v =
      some (fun i j => if i = idx r ∧ j = idx c then v else board i j) := by
  simp [writeCell, h]

/-- A read after a write: the written cell holds the written value, every other cell of
the grid what it held. -/
theorem readCell_writeCell {board board1 : Board} {r c : Int} {v : Option GamePiece}
    (hw : writeCell board r c v = some board1) {r1 c1 : Int} (h1 : inBounds r1 c1) :
    readCell board1 r1 c1 = if r1 = r ∧ c1 = c then some v else readCell board r1 c1 := by
  have hb : inBounds r c := by
    by_contra hn
    simp [writeCell, hn] at hw
  rw [writeCell_inBounds board v hb] at hw
  have hw1 := Option.some.inj hw
  subst hw1
  rw [readCell_inBounds _ h1, readCell_inBounds _ h1]
  obtain ⟨a0, a8, b0, b8⟩ := h1
  obtain ⟨c0, c8, d0, d8⟩ := hb
  simp only [idx_inj a0 a8 c0 c8, idx_inj b0 b8 d0 d8]
  split <;> rfl

/-- The colour check of `isLegalMove` on a move from a square to itself: the destination is
the mover, so the answer is `false` and `isLegalPieceMove` is not called. -/
theorem isLegalMove_self {board : Board} {p : GamePiece} {r c : Int}
    (h : readCell board r c = some (some p)) :
    p.isLegalMove r c r c board = some false := by
  simp [GamePiece.isLegalMove, h, GamePiece.getColor]

/-- A legal move has a destination different from the square of the mover. -/
theorem ne_of_isLegalMove {board : Board} {p : GamePiece} {sRow sCol dRow dCol : Int}
    (hs : readCell board sRow sCol = some (some p))
    (hl : p.isLegalMove sRow sCol dRow dCol board = some true) :
    ¬ (dRow = sRow ∧ dCol = sCol) := by
  rintro ⟨h1, h2⟩
  subst h1 h2
  rw [isLegalMove_self hs] at hl
  exact Bool.noConfusion (Option.some.inj hl)

/-- A legal move has a destination on the grid that holds no piece of the colour of
the mover. -/
theorem dest_of_isLegalMove {board : Board} {p : GamePiece} {sRow sCol dRow dCol : Int}
    (hl : p.isLegalMove sRow sCol dRow dCol board = some true) :
    readCell board dRow dCol = some none ∨
      ∃ q, readCell board dRow dCol = some (some q) ∧ q.getColor ≠ p.getColor := by
  unfold GamePiece.isLegalMove at hl
  cases hd : readCell board dRow dCol with
  | none => simp [hd] at hl
  | some x =>
    cases x with
    | none => exact Or.inl rfl
    | some q =>
      refine Or.inr ⟨q, rfl, ?_⟩
      intro hq
      have hq1 : p.color = q.getColor := hq.symm
      simp [hd, hq1] at hl

/-- What an accepted attempt does: the two writes and the change of turn. -/
theorem advanceGame_of_legal {g : Chess} {p : GamePiece} {sRow sCol dRow dCol : Int}
    (hs : readCell g.chessBoard sRow sCol = some (some p))
    (hc : p.getColor = g.playerTurn)
    (hl : p.isLegalMove sRow sCol dRow dCol g.chessBoard = some true) :
    ∃ board1 board2, writeCell g.chessBoard dRow dCol (some p) = some board1 ∧
      writeCell board1 sRow sCol none = some board2 ∧
      g.advanceGame sRow sCol dRow dCol =
        some (Chess.changePlayerTurn { g with chessBoard := board2 }) := by
  have hsb := inBounds_of_readCell hs
  have hdb : inBounds dRow dCol := by
    rcases dest_of_isLegalMove hl with h | ⟨q, h, _⟩ <;> exact inBounds_of_readCell h
  refine ⟨_, _, writeCell_inBounds _ _ hdb, writeCell_inBounds _ _ hsb, ?_⟩
  simp [Chess.advanceGame, hs, hc, hl, writeCell_inBounds _ _ hdb, writeCell_inBounds _ _ hsb]

theorem changePlayerTurn_chessBoard (g : Chess) :
    (Chess.changePlayerTurn g).chessBoard = g.chessBoard := by
  unfold Chess.changePlayerTurn
  split <;> rfl

theorem changePlayerTurn_playerTurn (g : Chess) :
    (Chess.changePlayerTurn g).playerTurn ≠ g.playerTurn := by
  unfold Chess.changePlayerTurn
  cases h : g.playerTurn <;> simp [h]

/-- What a rejected attempt does: nothing. -/
theorem advanceGame_of_rejects {g : Chess} {sRow sCol dRow dCol : Int}
    (h : g.rejects sRow sCol dRow dCol) :
    g.advanceGame sRow sCol dRow dCol = some g := by
  rcases h with h | ⟨p, hs, hc | hl⟩
  · simp [Chess.advanceGame, h]
  · simp [Chess.advanceGame, hs, hc]
  · unfold Chess.advanceGame
    simp only [hs]
    split
    · simp [hl]
    · rfl

/-- An attempt that gives a state was either rejected or accepted, never both. -/
theorem rejects_or_accepts {g g1 : Chess} {sRow sCol dRow dCol : Int}
    (h : g.advanceGame sRow sCol dRow dCol = some g1) :
    (g.rejects sRow sCol dRow dCol ∧ ¬ g.accepts sRow sCol dRow dCol) ∨
      (g.accepts sRow sCol dRow dCol ∧ ¬ g.rejects sRow sCol dRow dCol) := by
  unfold Chess.rejects Chess.accepts
  cases hs : readCell g.chessBoard sRow sCol with
  | none => simp [Chess.advanceGame, hs] at h
  | some x =>
    cases x with
    | none => simp
    | some p =>
      by_cases hc : p.getColor = g.playerTurn
      · cases hl : p.isLegalMove sRow sCol dRow dCol g.chessBoard with
        | none => simp [Chess.advanceGame, hs, hc, hl] at h
        | some v => cases v <;> simp [hc, hl]
      · simp [hc]

/-- What an accepted attempt does to the squares and to the turn. -/
theorem advanceGame_of_accepts {g : Chess} {sRow sCol dRow dCol : Int} :
    g.accepts sRow sCol dRow dCol →
      ∃ p g1, readCell g.chessBoard sRow sCol = some (some p) ∧
        g.advanceGame sRow sCol dRow dCol = some g1 ∧
        readCell g1.chessBoard dRow dCol = some (some p) ∧
        readCell g1.chessBoard sRow sCol = some none ∧
        (∀ r c, inBounds r c → ¬ (r = sRow ∧ c = sCol) → ¬ (r = dRow ∧ c = dCol) →
          readCell g1.chessBoard r c = readCell g.chessBoard r c) ∧
        g1.playerTurn ≠ g.playerTurn := by
  rintro ⟨p, hs, hc, hl⟩
  obtain ⟨board1, board2, hw1, hw2, hadv⟩ := advanceGame_of_legal hs hc hl
  have hsb := inBounds_of_readCell hs
  have hdb : inBounds dRow dCol := by
    rcases dest_of_isLegalMove hl with h | ⟨q, h, _⟩ <;> exact inBounds_of_readCell h
  have hne := ne_of_isLegalMove hs hl
  refine ⟨p, _, hs, hadv, ?_, ?_, ?_, ?_⟩
  · rw [changePlayerTurn_chessBoard]
    show readCell board2 dRow dCol = some (some p)
    rw [readCell_writeCell hw2 hdb, if_neg hne, readCell_writeCell hw1 hdb]
    simp
  · rw [changePlayerTurn_chessBoard]
    show readCell board2 sRow sCol = some none
    rw [readCell_writeCell hw2 hsb]
    simp
  · intro r c hb h1 h2
    rw [changePlayerTurn_chessBoard]
    show readCell board2 r c = readCell g.chessBoard r c
    rw [readCell_writeCell hw2 hb, if_neg h1, readCell_writeCell hw1 hb, if_neg h2]
  · exact changePlayerTurn_playerTurn _

/-! ## The loops of the traces -/

/-- The counted loop of `isMoveLinear`, when all its reads are inside the grid: it
returns, and returns `true` iff every cell it reads is empty. -/
theorem linearLoop_spec (cell : Int → Option (Option GamePiece)) (k : Nat) :
    ∀ i : Int, (∀ j, i ≤ j → j < i + k → ∃ x, cell j = some x) →
      ∃ v, linearLoop cell k i = some v ∧
        (v = true ↔ ∀ j, i ≤ j → j < i + k → cell j = some none) := by
  induction k with
  | zero =>
    intro i _
    refine ⟨true, rfl, ?_⟩
    simp only [true_iff]
    intro j h1 h2
    simp at h2
    omega
  | succ k ih =>
    intro i hread
    obtain ⟨x, hx⟩ := hread i (le_refl i) (by push_cast; omega)
    cases x with
    | some q =>
      refine ⟨false, by simp [linearLoop, hx], ?_⟩
      constructor
      · intro h
        exact Bool.noConfusion h
      · intro h
        have h1 := h i (le_refl i) (by push_cast; omega)
        rw [hx] at h1
        exact Option.noConfusion (Option.some.inj h1)
    | none =>
      obtain ⟨v, hv, hiff⟩ := ih (i + 1) (fun j h1 h2 => hread j (by omega) (by push_cast; omega))
      refine ⟨v, by simp [linearLoop, hx, hv], hiff.trans ?_⟩
      constructor
      · intro h j h1 h2
        by_cases hj : j = i
        · rw [hj]
          exact hx
        · exact h j (by omega) (by push_cast at h2; omega)
      · intro h j h1 h2
        exact h j (by omega) (by push_cast; omega)

/-- The counted loop of `isMoveLinear` looks at the cells it reads only. -/
theorem linearLoop_congr (cell cell1 : Int → Option (Option GamePiece)) (k : Nat) :
    ∀ i : Int, (∀ j, i ≤ j → j < i + k → cell1 j = cell j) →
      linearLoop cell1 k i = linearLoop cell k i := by
  induction k with
  | zero =>
    intro i _
    rfl
  | succ k ih =>
    intro i h
    have h0 := h i (le_refl i) (by push_cast; omega)
    have h1 := ih (i + 1) (fun j h1 h2 => h j (by omega) (by push_cast; omega))
    simp only [linearLoop, h0, h1]

/-- `isMoveLinear` on two squares of the grid returns, and returns `true` iff they
share a column or a row and the squares strictly between them are empty. -/
theorem isMoveLinear_spec (board : Board) {sRow sCol dRow dCol : Int}
    (hs : inBounds sRow sCol) (hd : inBounds dRow dCol) :
    ∃ v, GamePiece.isMoveLinear sRow sCol dRow dCol board = some v ∧
      (v = true ↔ (sCol = dCol ∨ sRow = dRow) ∧
        ∀ r c, onLineBetween sRow sCol dRow dCol r c → readCell board r c = some none) := by
  obtain ⟨s0, s8, t0, t8⟩ := hs
  obtain ⟨d0, d8, e0, e8⟩ := hd
  unfold GamePiece.isMoveLinear
  by_cases hc : sCol = dCol
  · rw [if_pos hc]
    by_cases hr : sRow > dRow
    · rw [if_pos hr]
      obtain ⟨v, hv, hiff⟩ := linearLoop_spec (fun i => readCell board (sRow - i) sCol)
        ((sRow - dRow) - 1).toNat 1
        (fun j h1 h2 => ⟨_, readCell_inBounds board ⟨by omega, by omega, t0, t8⟩⟩)
      refine ⟨v, hv, hiff.trans ⟨fun h => ⟨Or.inl hc, ?_⟩, fun h j h1 h2 => ?_⟩⟩
      · rintro r c (⟨_, h2, h3⟩ | ⟨h1, _, h3⟩)
        · have := h (sRow - r) (by unfold between at h3; omega) (by unfold between at h3; omega)
          simp only [sub_sub_cancel] at this
          rw [h2]
          exact this
        · unfold between at h3
          omega
      · exact h.2 _ _ (Or.inl ⟨hc, rfl, by unfold between; omega⟩)
    · rw [if_neg hr]
      obtain ⟨v, hv, hiff⟩ := linearLoop_spec (fun i => readCell board (sRow + i) sCol)
        ((dRow - sRow) - 1).toNat 1
        (fun j h1 h2 => ⟨_, readCell_inBounds board ⟨by omega, by omega, t0, t8⟩⟩)
      refine ⟨v, hv, hiff.trans ⟨fun h => ⟨Or.inl hc, ?_⟩, fun h j h1 h2 => ?_⟩⟩
      · rintro r c (⟨_, h2, h3⟩ | ⟨h1, _, h3⟩)
        · have := h (r - sRow) (by unfold between at h3; omega) (by unfold between at h3; omega)
          simp only [add_sub_cancel] at this
          rw [h2]
          exact this
        · unfold between at h3
          omega
      · exact h.2 _ _ (Or.inl ⟨hc, rfl, by unfold between; omega⟩)
  · rw [if_neg hc]
    by_cases hr : sRow = dRow
    · rw [if_pos hr]
      by_cases hl : sCol > dCol
      · rw [if_pos hl]
        obtain ⟨v, hv, hiff⟩ := linearLoop_spec (fun i => readCell board sRow (sCol - i))
          ((sCol - dCol) - 1).toNat 1
          (fun j h1 h2 => ⟨_, readCell_inBounds board ⟨s0, s8, by omega, by omega⟩⟩)
        refine ⟨v, hv, hiff.trans ⟨fun h => ⟨Or.inr hr, ?_⟩, fun h j h1 h2 => ?_⟩⟩
        · rintro r c (⟨h1, _, _⟩ | ⟨_, h2, h3⟩)
          · exact absurd h1 hc
          · have := h (sCol - c) (by unfold between at h3; omega)
              (by unfold between at h3; omega)
            simp only [sub_sub_cancel] at this
            rw [h2]
            exact this
        · exact h.2 _ _ (Or.inr ⟨hr, rfl, by unfold between; omega⟩)
      · rw [if_neg hl]
        obtain ⟨v, hv, hiff⟩ := linearLoop_spec (fun i => readCell board sRow (sCol + i))
          ((dCol - sCol) - 1).toNat 1
          (fun j h1 h2 => ⟨_, readCell_inBounds board ⟨s0, s8, by omega, by omega⟩⟩)
        refine ⟨v, hv, hiff.trans ⟨fun h => ⟨Or.inr hr, ?_⟩, fun h j h1 h2 => ?_⟩⟩
        · rintro r c (⟨h1, _, _⟩ | ⟨_, h2, h3⟩)
          · exact absurd h1 hc
          · have := h (c - sCol) (by unfold between at h3; omega)
              (by unfold between at h3; omega)
            simp only [add_sub_cancel] at this
            rw [h2]
            exact this
        · exact h.2 _ _ (Or.inr ⟨hr, rfl, by unfold between; omega⟩)
    · rw [if_neg hr]
      refine ⟨false, rfl, ?_⟩
      constructor
      · intro h
        exact Bool.noConfusion h
      · rintro ⟨h | h, _⟩
        · exact absurd h hc
        · exact absurd h hr

/-- `isMoveLinear` does not look at the source and the destination square. -/
theorem isMoveLinear_congr (board board1 : Board) {sRow sCol dRow dCol : Int}
    (h : ∀ r c, ¬ (r = sRow ∧ c = sCol) → ¬ (r = dRow ∧ c = dCol) →
      readCell board1 r c = readCell board r c) :
    GamePiece.isMoveLinear sRow sCol dRow dCol board1 =
      GamePiece.isMoveLinear sRow sCol dRow dCol board := by
  unfold GamePiece.isMoveLinear
  split
  · split
    · exact linearLoop_congr _ _ _ _ (fun j h1 h2 => h _ _ (by omega) (by omega))
    · exact linearLoop_congr _ _ _ _ (fun j h1 h2 => h _ _ (by omega) (by omega))
  · split
    · split
      · exact linearLoop_congr _ _ _ _ (fun j h1 h2 => h _ _ (by omega) (by omega))
      · exact linearLoop_congr _ _ _ _ (fun j h1 h2 => h _ _ (by omega) (by omega))
    · rfl

/-- `isMoveLinear` on two squares next to each other on a column or a row: no square
lies between them, the loop body never runs. -/
theorem isMoveLinear_adjacent (board : Board) {sRow sCol dRow dCol : Int}
    (h : (sCol = dCol ∧ (dRow = sRow + 1 ∨ dRow = sRow - 1)) ∨
      (sRow = dRow ∧ (dCol = sCol + 1 ∨ dCol = sCol - 1))) :
    GamePiece.isMoveLinear sRow sCol dRow dCol board = some true := by
  unfold GamePiece.isMoveLinear
  split
  · split
    · have hk : ((sRow - dRow) - 1).toNat = 0 := by omega
      rw [hk]
      rfl
    · have hk : ((dRow - sRow) - 1).toNat = 0 := by omega
      rw [hk]
      rfl
  · split
    · split
      · have hk : ((sCol - dCol) - 1).toNat = 0 := by omega
        rw [hk]
        rfl
      · have hk : ((dCol - sCol) - 1).toNat = 0 := by omega
        rw [hk]
        rfl
    · omega

/-- The loop of `isMoveDiagonal` never needs more fuel than the rows left in its
direction, plus one round for the last test: more fuel gives the same result. -/
theorem diagonalLoop_succ (board : Board) (dRow rd cd : Int) (hrd : rd = 1 ∨ rd = -1) :
    ∀ (fuel : Nat) (r c : Int), rowsLeft rd r < fuel →
      diagonalLoop board dRow rd cd (fuel + 1) r c =
        diagonalLoop board dRow rd cd fuel r c := by
  intro fuel
  induction fuel with
  | zero =>
    intro r c h
    exact absurd h (Nat.not_lt_zero _)
  | succ f ih =>
    intro r c h
    conv_lhs => rw [diagonalLoop]
    conv_rhs => rw [diagonalLoop]
    by_cases hr : r = dRow
    · simp [hr]
    · simp only [ne_eq, hr, not_false_eq_true, if_true]
      cases hx : readCell board r c with
      | none => rfl
      | some x =>
        cases x with
        | some q => rfl
        | none =>
          have hb := inBounds_of_readCell hx
          obtain ⟨b0, b8, _, _⟩ := hb
          apply ih
          unfold rowsLeft at h ⊢
          rcases hrd with h1 | h1
          · subst h1
            simp only [b0, b8, and_self, if_true] at h
            split_ifs <;> omega
          · subst h1
            have hne : ¬ ((-1 : Int) = 1) := by decide
            simp only [b0, b8, and_self, if_true, hne, if_false] at h
            simp only [hne, if_false]
            split_ifs <;> omega

/-- Nine rounds are all the loop of `isMoveDiagonal` can use. -/
theorem diagonalLoop_fuel (board : Board) (dRow rd cd : Int) (hrd : rd = 1 ∨ rd = -1)
    (fuel : Nat) (r c : Int) :
    diagonalLoop board dRow rd cd (9 + fuel) r c = diagonalLoop board dRow rd cd 9 r c := by
  induction fuel with
  | zero => rfl
  | succ f ih =>
    have h : rowsLeft rd r < 9 + f := by
      unfold rowsLeft
      split_ifs <;> omega
    have e : 9 + (f + 1) = (9 + f) + 1 := rfl
    rw [e, diagonalLoop_succ board dRow rd cd hrd (9 + f) r c h, ih]

/-- `isMoveDiagonal` is `isMoveDiagonalFuel` with any fuel from 9 on. -/
theorem isMoveDiagonalFuel_eq (board : Board) (sRow sCol dRow dCol : Int) (fuel : Nat) :
    GamePiece.isMoveDiagonalFuel (9 + fuel) sRow sCol dRow dCol board =
      GamePiece.isMoveDiagonal sRow sCol dRow dCol board := by
  unfold GamePiece.isMoveDiagonal GamePiece.isMoveDiagonalFuel
  split
  · apply diagonalLoop_fuel
    split_ifs <;> simp
  · rfl

/-- The loop of `isMoveDiagonal`, started `m` steps before the destination row with
all the cells of these steps inside the grid and more than `m` rounds of fuel: it
returns, and returns `true` iff every cell it reads is empty. -/
theorem diagonalLoop_spec (board : Board) (dRow rd cd : Int) (hrd : rd = 1 ∨ rd = -1)
    (m : Nat) :
    ∀ (fuel : Nat) (r c : Int), m < fuel → dRow = r + m * rd →
      (∀ j : Int, 0 ≤ j → j < m → inBounds (r + j * rd) (c + j * cd)) →
      ∃ v, diagonalLoop board dRow rd cd fuel r c = some v ∧
        (v = true ↔
          ∀ j : Int, 0 ≤ j → j < m → readCell board (r + j * rd) (c + j * cd) = some none) := by
  induction m with
  | zero =>
    intro fuel r c hf hd _
    obtain ⟨f, rfl⟩ := Nat.exists_eq_succ_of_ne_zero (Nat.pos_iff_ne_zero.mp hf)
    have hr : r = dRow := by simp at hd; exact hd.symm
    refine ⟨true, by simp [diagonalLoop, hr], ?_⟩
    simp only [true_iff]
    intro j h1 h2
    simp at h2
    omega
  | succ m ih =>
    intro fuel r c hf hd hb
    have hf0 : fuel ≠ 0 := by omega
    obtain ⟨f, rfl⟩ := Nat.exists_eq_succ_of_ne_zero hf0
    have hr : r ≠ dRow := by
      rcases hrd with h1 | h1 <;> subst h1 <;> push_cast at hd <;> omega
    have hb0 : inBounds r c := by
      have := hb 0 (le_refl 0) (by push_cast; omega)
      simpa using this
    have e1 : ∀ j : Int, r + rd + j * rd = r + (j + 1) * rd := fun j => by ring
    have e2 : ∀ j : Int, c + cd + j * cd = c + (j + 1) * cd := fun j => by ring
    rw [diagonalLoop, if_pos hr, readCell_inBounds board hb0]
    cases hx : board (idx r) (idx c) with
    | some q =>
      refine ⟨false, rfl, ?_⟩
      constructor
      · intro h
        exact Bool.noConfusion h
      · intro h
        have h1 := h 0 (le_refl 0) (by push_cast; omega)
        simp only [zero_mul, add_zero] at h1
        rw [readCell_inBounds board hb0, hx] at h1
        exact Option.noConfusion (Option.some.inj h1)
    | none =>
      obtain ⟨v, hv, hiff⟩ := ih f (r + rd) (c + cd) (by omega)
        (by rw [hd]; push_cast; ring)
        (fun j h1 h2 => by
          rw [e1, e2]
          exact hb (j + 1) (by omega) (by push_cast; omega))
      refine ⟨v, hv, hiff.trans ?_⟩
      constructor
      · intro h j h1 h2
        by_cases hj : j = 0
        · subst hj
          simp only [zero_mul, add_zero]
          rw [readCell_inBounds board hb0, hx]
        · have := h (j - 1) (by omega) (by push_cast at h2; omega)
          rw [e1, e2] at this
          simpa using this
      · intro h j h1 h2
        rw [e1, e2]
        exact h (j + 1) (by omega) (by push_cast; omega)

/-- The walk of `isMoveDiagonal` between two squares of the grid that lie `n` steps
apart on a diagonal, `n` not 0: it returns, and returns `true` iff every square of the
diagonal strictly between the two is empty. -/
theorem diagonalLoop_walk (board : Board) {sRow sCol dRow dCol : Int} (rd cd : Int)
    (hrd : rd = 1 ∨ rd = -1) (hcd : cd = 1 ∨ cd = -1) (n : Nat) (hn : 0 < n)
    (h1 : dRow = sRow + n * rd) (h2 : dCol = sCol + n * cd)
    (hs : inBounds sRow sCol) (hd : inBounds dRow dCol) :
    ∃ v, diagonalLoop board dRow rd cd 9 (sRow + rd) (sCol + cd) = some v ∧
      (v = true ↔ ∀ r c, onDiagonalBetween sRow sCol dRow dCol r c →
        readCell board r c = some none) := by
  obtain ⟨s0, s8, t0, t8⟩ := hs
  obtain ⟨d0, d8, e0, e8⟩ := hd
  obtain ⟨m, rfl⟩ := Nat.exists_eq_succ_of_ne_zero (Nat.pos_iff_ne_zero.mp hn)
  push_cast at h1 h2
  obtain ⟨v, hv, hiff⟩ := diagonalLoop_spec board dRow rd cd hrd m 9
    (sRow + rd) (sCol + cd) (by rcases hrd with rfl | rfl <;> omega) (by rw [h1]; ring)
    (fun j j0 jm => by
      rcases hrd with rfl | rfl <;> rcases hcd with rfl | rfl <;>
        (unfold inBounds; omega))
  refine ⟨v, hv, hiff.trans ⟨fun h r c hb => ?_, fun h j j0 jm => ?_⟩⟩
  all_goals rcases hrd with rfl | rfl <;> rcases hcd with rfl | rfl
  any_goals
    apply h
    refine ⟨?_, ?_, ?_⟩
    · unfold between
      omega
    · unfold between
      omega
    · rw [abs_eq_abs]
      omega
  all_goals
    obtain ⟨b1, b2, b3⟩ := hb
    unfold between at b1 b2
    rcases abs_cases (r - sRow) with ⟨a1, a2⟩ | ⟨a1, a2⟩ <;>
      rcases abs_cases (c - sCol) with ⟨a3, a4⟩ | ⟨a3, a4⟩ <;>
      try omega
    all_goals
      have hj := h (|r - sRow| - 1) (by omega) (by omega)
      convert hj using 2 <;> omega

/-- `isMoveDiagonal` on two different squares of the grid returns, and returns `true`
iff the two lie on a diagonal and the squares strictly between them are empty. -/
theorem isMoveDiagonal_spec (board : Board) {sRow sCol dRow dCol : Int}
    (hs : inBounds sRow sCol) (hd : inBounds dRow dCol)
    (hne : ¬ (dRow = sRow ∧ dCol = sCol)) :
    ∃ v, GamePiece.isMoveDiagonal sRow sCol dRow dCol board = some v ∧
      (v = true ↔ |dRow - sRow| = |dCol - sCol| ∧ dRow - sRow ≠ 0 ∧
        ∀ r c, onDiagonalBetween sRow sCol dRow dCol r c →
          readCell board r c = some none) := by
  unfold GamePiece.isMoveDiagonal GamePiece.isMoveDiagonalFuel
  by_cases hdiag : dCol - sCol = dRow - sRow ∨ dCol - sCol = sRow - dRow
  · rw [if_pos hdiag]
    have habs : |dRow - sRow| = |dCol - sCol| := by
      rw [abs_eq_abs]
      omega
    have hr0 : dRow - sRow ≠ 0 := by omega
    have hwalk : ∃ v, diagonalLoop board dRow (if dRow - sRow > 0 then 1 else -1)
        (if dCol - sCol > 0 then 1 else -1) 9
        (sRow + if dRow - sRow > 0 then 1 else -1)
        (sCol + if dCol - sCol > 0 then 1 else -1) = some v ∧
        (v = true ↔ ∀ r c, onDiagonalBetween sRow sCol dRow dCol r c →
          readCell board r c = some none) := by
      by_cases hr : dRow - sRow > 0
      · by_cases hc : dCol - sCol > 0
        · rw [if_pos hr, if_pos hc]
          exact diagonalLoop_walk board 1 1 (Or.inl rfl) (Or.inl rfl) (dRow - sRow).toNat
            (by omega) (by omega) (by omega) hs hd
        · rw [if_pos hr, if_neg hc]
          exact diagonalLoop_walk board 1 (-1) (Or.inl rfl) (Or.inr rfl)
            (dRow - sRow).toNat (by omega) (by omega) (by omega) hs hd
      · by_cases hc : dCol - sCol > 0
        · rw [if_neg hr, if_pos hc]
          exact diagonalLoop_walk board (-1) 1 (Or.inr rfl) (Or.inl rfl)
            (sRow - dRow).toNat (by omega) (by omega) (by omega) hs hd
        · rw [if_neg hr, if_neg hc]
          exact diagonalLoop_walk board (-1) (-1) (Or.inr rfl) (Or.inr rfl)
            (sRow - dRow).toNat (by omega) (by omega) (by omega) hs hd
    obtain ⟨v, hv, hiff⟩ := hwalk
    exact ⟨v, hv, hiff.trans ⟨fun h => ⟨habs, hr0, h⟩, fun h => h.2.2⟩⟩
  · rw [if_neg hdiag]
    refine ⟨false, rfl, ?_⟩
    constructor
    · intro h
      exact Bool.noConfusion h
    · rintro ⟨h, _, _⟩
      rw [abs_eq_abs] at h
      omega

/-- C1: a rejected move attempt (the source square is empty, or its piece does not
belong to the side to move, or `isLegalMove` returns false) gives back the state it
was made in: the same board on all 64 squares and the same side to move. -/
theorem advanceGame_rejected (g : Chess) (sRow sCol dRow dCol : Int)
    (h : g.rejects sRow sCol dRow dCol) :
    g.advanceGame sRow sCol dRow dCol = some g :=
  advanceGame_of_rejects h

/-- Scenario B: in the starting state the Queen attempt (7,4) to (3,4) is rejected by
`isLegalMove` (the Pawn at (6,4) is in the way) and changes nothing. -/
theorem advanceGame_rejected_witness :
    GamePiece.isLegalMove ⟨.W, .Queen⟩ 7 4 3 4 Chess.new.chessBoard = some false ∧
      Chess.new.advanceGame 7 4 3 4 = some Chess.new :=
  ⟨by decide, advanceGame_rejected Chess.new 7 4 3 4 (by decide)⟩

/-- C2: an accepted move attempt puts the piece of the source on the destination,
empties the source, leaves every other square as it was and gives the turn to the
other side; and whenever an attempt gives a state, the side to move has changed iff
the attempt was accepted. -/
theorem advanceGame_accepted (g : Chess) (sRow sCol dRow dCol : Int) :
    (g.accepts sRow sCol dRow dCol →
      ∃ p g1, readCell g.chessBoard sRow sCol = some (some p) ∧
        g.advanceGame sRow sCol dRow dCol = some g1 ∧
        readCell g1.chessBoard dRow dCol = some (some p) ∧
        readCell g1.chessBoard sRow sCol = some none ∧
        (∀ r c, inBounds r c → ¬ (r = sRow ∧ c = sCol) → ¬ (r = dRow ∧ c = dCol) →
          readCell g1.chessBoard r c = readCell g.chessBoard r c) ∧
        g1.playerTurn ≠ g.playerTurn) ∧
    (∀ g1, g.advanceGame sRow sCol dRow dCol = some g1 →
      (g1.playerTurn ≠ g.playerTurn ↔ g.accepts sRow sCol dRow dCol)) := by
  have key := @advanceGame_of_accepts g sRow sCol dRow dCol
  refine ⟨key, ?_⟩
  intro g1 h1
  constructor
  · intro hne
    rcases rejects_or_accepts h1 with ⟨hr, _⟩ | ⟨ha, _⟩
    · rw [advanceGame_of_rejects hr] at h1
      exact absurd (congrArg Chess.playerTurn (Option.some.inj h1)).symm hne
    · exact ha
  · intro ha
    obtain ⟨p, g2, _, hadv, _, _, _, hturn⟩ := key ha
    rw [hadv] at h1
    rw [← Option.some.inj h1]
    exact hturn

/-- In the starting state the Knight attempt (7,6) to (5,5) is accepted: the Knight
stands on (5,5), (7,6) is empty, the other squares are as before, Black is to move. -/
theorem advanceGame_accepted_witness :
    Chess.new.accepts 7 6 5 5 ∧
      ∃ p g1, readCell Chess.new.chessBoard 7 6 = some (some p) ∧
        Chess.new.advanceGame 7 6 5 5 = some g1 ∧
        readCell g1.chessBoard 5 5 = some (some p) ∧
        readCell g1.chessBoard 7 6 = some none ∧
        (∀ r c, inBounds r c → ¬ (r = 7 ∧ c = 6) → ¬ (r = 5 ∧ c = 5) →
          readCell g1.chessBoard r c = readCell Chess.new.chessBoard r c) ∧
        g1.playerTurn ≠ Chess.new.playerTurn :=
  ⟨by decide, (advanceGame_accepted Chess.new 7 6 5 5).1 (by decide)⟩

/-- C3: the shared legality check of `isLegalMove`, for a piece of any kind: a
destination holding a piece of the colour of the mover gives `false`; an empty
destination or one holding a piece of the other colour gives what `isLegalPieceMove`
of the kind of the mover gives.  So an accepted attempt leaves every piece of the
side that moved, other than the moved one, on its square. -/
theorem isLegalMove_gate (p : GamePiece) (board : Board) (sRow sCol dRow dCol : Int) :
    (∀ q, readCell board dRow dCol = some (some q) → q.getColor = p.getColor →
      p.isLegalMove sRow sCol dRow dCol board = some false) ∧
    ((readCell board dRow dCol = some none ∨
        ∃ q, readCell board dRow dCol = some (some q) ∧ q.getColor ≠ p.getColor) →
      p.isLegalMove sRow sCol dRow dCol board =
        p.isLegalPieceMove sRow sCol dRow dCol board) ∧
    (∀ g : Chess, g.chessBoard = board → g.accepts sRow sCol dRow dCol →
      ∃ g1, g.advanceGame sRow sCol dRow dCol = some g1 ∧
        ∀ r c q, ¬ (r = sRow ∧ c = sCol) → readCell board r c = some (some q) →
          q.getColor = g.playerTurn → readCell g1.chessBoard r c = some (some q)) := by
  refine ⟨?_, ?_, ?_⟩
  · intro q hq hc
    have hc1 : p.color = q.getColor := hc.symm
    simp [GamePiece.isLegalMove, hq, hc1]
  · rintro (hd | ⟨q, hd, hc⟩)
    · simp [GamePiece.isLegalMove, hd]
    · have hc1 : ¬ p.color = q.getColor := fun h => hc h.symm
      simp [GamePiece.isLegalMove, hd, hc1]
  · intro g hg ha
    subst hg
    obtain ⟨p1, g1, hs, hadv, _, _, hrest, _⟩ := advanceGame_of_accepts ha
    refine ⟨g1, hadv, ?_⟩
    intro r c q hne hq hc
    obtain ⟨p2, hs2, hc2, hl2⟩ := ha
    have hd : ¬ (r = dRow ∧ c = dCol) := by
      rintro ⟨h1, h2⟩
      subst h1 h2
      rcases dest_of_isLegalMove hl2 with h | ⟨q1, h, hq1⟩
      · rw [hq] at h
        exact Option.noConfusion (Option.some.inj h)
      · rw [hq] at h
        have : q = q1 := Option.some.inj (Option.some.inj h)
        subst this
        exact hq1 (hc.trans hc2.symm)
    rw [hrest r c (inBounds_of_readCell hq) hne hd]
    exact hq

/-- In the starting layout the Queen of (7,4) may not go to (6,4), where a Pawn of
her colour stands, although the Queen predicate alone allows the step. -/
theorem isLegalMove_gate_witness :
    GamePiece.isLegalPieceMove ⟨.W, .Queen⟩ 7 4 6 4 GameBoard.new = some true ∧
      GamePiece.isLegalMove ⟨.W, .Queen⟩ 7 4 6 4 GameBoard.new = some false :=
  ⟨by decide,
    (isLegalMove_gate ⟨.W, .Queen⟩ GameBoard.new 7 4 6 4).1 ⟨.W, .Pawn⟩
      (by decide) (by decide)⟩

/-- C4: a move attempt from an on-board square to itself is never accepted.  It gives
back the state it was made in, and `isLegalMove` of the piece on the square returns
`false` from its colour check, whether or not `isLegalPieceMove` has a value there. -/
theorem advanceGame_same_square (g : Chess) (r c : Int) (h : inBounds r c) :
    g.advanceGame r c r c = some g ∧ ¬ g.accepts r c r c ∧
      ∀ p, readCell g.chessBoard r c = some (some p) →
        p.isLegalMove r c r c g.chessBoard = some false := by
  have hrej : g.rejects r c r c := by
    unfold Chess.rejects
    rw [readCell_inBounds _ h]
    cases hx : g.chessBoard (idx r) (idx c) with
    | none => exact Or.inl rfl
    | some p =>
      refine Or.inr ⟨p, rfl, Or.inr ?_⟩
      apply isLegalMove_self
      rw [readCell_inBounds _ h, hx]
  refine ⟨advanceGame_of_rejects hrej, ?_, fun p hp => isLegalMove_self hp⟩
  rcases rejects_or_accepts (advanceGame_of_rejects hrej) with ⟨_, hn⟩ | ⟨_, hn⟩
  · exact hn
  · exact absurd hrej hn

/-- The Bishop of (0,2) of the starting layout, with Black to move: the attempt from
(0,2) to (0,2) changes nothing, and the diagonal trace, which has no value there (its
first read is outside the grid), is not run. -/
theorem advanceGame_same_square_witness :
    inBounds 0 2 ∧
      GamePiece.isLegalPieceMove ⟨.B, .Bishop⟩ 0 2 0 2 GameBoard.new = none ∧
      Chess.advanceGame ⟨GameBoard.new, .B⟩ 0 2 0 2 = some ⟨GameBoard.new, .B⟩ :=
  ⟨by decide, by decide,
    (advanceGame_same_square ⟨GameBoard.new, .B⟩ 0 2 (by decide)).1⟩

/-! ## The traces -/

/-- C5: on two squares of the grid `isMoveLinear` returns, and returns `true` iff the
two share a column or a row and every square strictly between them on that line is
empty; it gives the same on a board that differs on the source and the destination
only; and it is `true` for two squares next to each other on a column or a row. -/
theorem isMoveLinear_iff (board : Board) (sRow sCol dRow dCol : Int)
    (hs : inBounds sRow sCol) (hd : inBounds dRow dCol) :
    (∃ v, GamePiece.isMoveLinear sRow sCol dRow dCol board = some v ∧
      (v = true ↔ (sCol = dCol ∨ sRow = dRow) ∧
        ∀ r c, onLineBetween sRow sCol dRow dCol r c → readCell board r c = some none)) ∧
    (∀ board1 : Board,
      (∀ r c, ¬ (r = sRow ∧ c = sCol) → ¬ (r = dRow ∧ c = dCol) →
        readCell board1 r c = readCell board r c) →
      GamePiece.isMoveLinear sRow sCol dRow dCol board1 =
        GamePiece.isMoveLinear sRow sCol dRow dCol board) ∧
    ((sCol = dCol ∧ (dRow = sRow + 1 ∨ dRow = sRow - 1)) ∨
        (sRow = dRow ∧ (dCol = sCol + 1 ∨ dCol = sCol - 1)) →
      GamePiece.isMoveLinear sRow sCol dRow dCol board = some true) :=
  ⟨isMoveLinear_spec board hs hd, fun board1 h => isMoveLinear_congr board board1 h,
    isMoveLinear_adjacent board⟩

/-- In the starting layout the trace from (7,4) to (3,4) is `false` (the Pawn of
(6,4) is between) and the trace from (7,4) to (6,4), next to it, is `true`. -/
theorem isMoveLinear_iff_witness :
    inBounds 7 4 ∧ inBounds 6 4 ∧
      GamePiece.isMoveLinear 7 4 3 4 GameBoard.new = some false ∧
      GamePiece.isMoveLinear 7 4 6 4 GameBoard.new = some true :=
  ⟨by decide, by decide, by decide,
    (isMoveLinear_iff GameBoard.new 7 4 6 4 (by decide) (by decide)).2.2
      (Or.inl ⟨rfl, Or.inr (by decide)⟩)⟩

/-- C7: for a King standing on a square of the board and a destination on the grid,
`isLegalMove` returns, and returns `true` iff the row delta and the column delta are
both within [-1, 1], the destination is not the square of the King, and the
destination is empty or holds a piece of the other colour; and it gives the same on
every board with the same destination cell. -/
theorem king_isLegalMove (board : Board) (p : GamePiece) (sRow sCol dRow dCol : Int)
    (hp : readCell board sRow sCol = some (some p)) (hk : p.kind = Kind.King)
    (hd : inBounds dRow dCol) :
    (∃ v, p.isLegalMove sRow sCol dRow dCol board = some v ∧
      (v = true ↔
        (-1 ≤ dRow - sRow ∧ dRow - sRow ≤ 1 ∧ -1 ≤ dCol - sCol ∧ dCol - sCol ≤ 1) ∧
        ¬ (dRow = sRow ∧ dCol = sCol) ∧
        (readCell board dRow dCol = some none ∨
          ∃ q, readCell board dRow dCol = some (some q) ∧ q.getColor ≠ p.getColor))) ∧
    (∀ board1 : Board, readCell board1 dRow dCol = readCell board dRow dCol →
      p.isLegalMove sRow sCol dRow dCol board1 =
        p.isLegalMove sRow sCol dRow dCol board) := by
  constructor
  · have hx := readCell_inBounds board hd
    have hking : p.isLegalPieceMove sRow sCol dRow dCol board =
        if sRow - dRow ≤ 1 ∧ sRow - dRow ≥ -1 ∧ sCol - dCol ≤ 1 ∧ sCol - dCol ≥ -1 then
          some true
        else some false := by
      simp only [GamePiece.isLegalPieceMove, hk, King.isLegalPieceMove]
    cases hc : board (idx dRow) (idx dCol) with
    | none =>
      rw [hc] at hx
      have hne : ¬ (dRow = sRow ∧ dCol = sCol) := by
        rintro ⟨h1, h2⟩
        rw [h1, h2, hp] at hx
        exact Option.noConfusion (Option.some.inj hx)
      have hgate : p.isLegalMove sRow sCol dRow dCol board =
          p.isLegalPieceMove sRow sCol dRow dCol board := by
        simp [GamePiece.isLegalMove, hx]
      rw [hgate, hking]
      by_cases hg : sRow - dRow ≤ 1 ∧ sRow - dRow ≥ -1 ∧ sCol - dCol ≤ 1 ∧ sCol - dCol ≥ -1
      · rw [if_pos hg]
        refine ⟨true, rfl, ?_⟩
        simp only [true_iff]
        exact ⟨by omega, hne, Or.inl hx⟩
      · rw [if_neg hg]
        refine ⟨false, rfl, ?_⟩
        constructor
        · intro h
          exact Bool.noConfusion h
        · rintro ⟨h, _, _⟩
          exact absurd (by omega) hg
    | some q =>
      rw [hc] at hx
      by_cases hcol : p.color = q.getColor
      · refine ⟨false, ?_, ?_⟩
        · simp [GamePiece.isLegalMove, hx, hcol]
        · constructor
          · intro h
            exact Bool.noConfusion h
          · rintro ⟨_, _, h | ⟨q1, h, hq1⟩⟩
            · rw [hx] at h
              exact Option.noConfusion (Option.some.inj h)
            · rw [hx] at h
              have : q1 = q := (Option.some.inj (Option.some.inj h)).symm
              subst this
              exact absurd hcol.symm hq1
      · have hne : ¬ (dRow = sRow ∧ dCol = sCol) := by
          rintro ⟨h1, h2⟩
          rw [h1, h2, hp] at hx
          have : p = q := Option.some.inj (Option.some.inj hx)
          subst this
          exact hcol rfl
        have hgate : p.isLegalMove sRow sCol dRow dCol board =
            p.isLegalPieceMove sRow sCol dRow dCol board := by
          simp [GamePiece.isLegalMove, hx, hcol]
        rw [hgate, hking]
        by_cases hg : sRow - dRow ≤ 1 ∧ sRow - dRow ≥ -1 ∧ sCol - dCol ≤ 1 ∧
            sCol - dCol ≥ -1
        · rw [if_pos hg]
          refine ⟨true, rfl, ?_⟩
          simp only [true_iff]
          exact ⟨by omega, hne, Or.inr ⟨q, hx, fun h => hcol h.symm⟩⟩
        · rw [if_neg hg]
          refine ⟨false, rfl, ?_⟩
          constructor
          · intro h
            exact Bool.noConfusion h
          · rintro ⟨h, _, _⟩
            exact absurd (by omega) hg
  · intro board1 h1
    simp only [GamePiece.isLegalMove, h1, GamePiece.isLegalPieceMove, hk,
      King.isLegalPieceMove]

/-- In the starting layout the King of (7,3) may go to none of its neighbours: (6,3)
holds a Pawn of its colour.  On the board after the Pawn attempt (6,3) to (5,3) the
step of the King to (6,3) is legal. -/
theorem king_isLegalMove_witness :
    GamePiece.isLegalMove ⟨.W, .King⟩ 7 3 6 3 GameBoard.new = some false ∧
      ∃ g1, Chess.new.advanceGame 6 3 5 3 = some g1 ∧
        ∃ v, GamePiece.isLegalMove ⟨.W, .King⟩ 7 3 6 3 g1.chessBoard = some v ∧
          (v = true ↔
            (-1 ≤ (6 : Int) - 7 ∧ (6 : Int) - 7 ≤ 1 ∧ -1 ≤ (3 : Int) - 3 ∧
              (3 : Int) - 3 ≤ 1) ∧
            ¬ ((6 : Int) = 7 ∧ (3 : Int) = 3) ∧
            (readCell g1.chessBoard 6 3 = some none ∨
              ∃ q, readCell g1.chessBoard 6 3 = some (some q) ∧
                q.getColor ≠ GamePiece.getColor ⟨.W, .King⟩)) :=
  ⟨by decide, _, rfl,
    (king_isLegalMove _ ⟨.W, .King⟩ 7 3 6 3 (by decide) rfl (by decide)).1⟩

/-- C8: the Knight predicate returns `true` iff the move is an L, on every board the
same; so `isLegalMove` of a Knight, for a destination on the grid, returns `true` iff
the move is an L and the destination is empty or holds a piece of the other colour. -/
theorem knight_isLegalPieceMove (board : Board) (sRow sCol dRow dCol : Int) :
    Knight.isLegalPieceMove sRow sCol dRow dCol board =
        some (decide (isLShape sRow sCol dRow dCol)) ∧
    (∀ board1 : Board, Knight.isLegalPieceMove sRow sCol dRow dCol board1 =
      Knight.isLegalPieceMove sRow sCol dRow dCol board) ∧
    (∀ p : GamePiece, p.kind = Kind.Knight → inBounds dRow dCol →
      ∃ v, p.isLegalMove sRow sCol dRow dCol board = some v ∧
        (v = true ↔ isLShape sRow sCol dRow dCol ∧
          (readCell board dRow dCol = some none ∨
            ∃ q, readCell board dRow dCol = some (some q) ∧
              q.getColor ≠ p.getColor))) := by
  have e1 : |dRow - sRow| = 1 ↔ (dRow = sRow - 1 ∨ dRow = sRow + 1) := by
    rw [abs_eq (by norm_num)]
    omega
  have e2 : |dCol - sCol| = 2 ↔ (dCol = sCol - 2 ∨ dCol = sCol + 2) := by
    rw [abs_eq (by norm_num)]
    omega
  have e3 : |dRow - sRow| = 2 ↔ (dRow = sRow - 2 ∨ dRow = sRow + 2) := by
    rw [abs_eq (by norm_num)]
    omega
  have e4 : |dCol - sCol| = 1 ↔ (dCol = sCol - 1 ∨ dCol = sCol + 1) := by
    rw [abs_eq (by norm_num)]
    omega
  have hknight : Knight.isLegalPieceMove sRow sCol dRow dCol board =
      some (decide (isLShape sRow sCol dRow dCol)) := by
    have hL : isLShape sRow sCol dRow dCol ↔
        ((dRow = sRow - 1 ∨ dRow = sRow + 1) ∧ (dCol = sCol - 2 ∨ dCol = sCol + 2)) ∨
          ((dRow = sRow - 2 ∨ dRow = sRow + 2) ∧ (dCol = sCol - 1 ∨ dCol = sCol + 1)) := by
      unfold isLShape
      rw [e1, e2, e3, e4]
    unfold Knight.isLegalPieceMove
    split_ifs with h1 h2
    · rw [decide_eq_true (hL.mpr (Or.inl h1))]
    · rw [decide_eq_true (hL.mpr (Or.inr h2))]
    · rw [decide_eq_false (fun h => (hL.mp h).elim h1 h2)]
  refine ⟨hknight, fun board1 => rfl, ?_⟩
  intro p hk hd
  have hpiece : p.isLegalPieceMove sRow sCol dRow dCol board =
      some (decide (isLShape sRow sCol dRow dCol)) := by
    rw [← hknight]
    simp only [GamePiece.isLegalPieceMove, hk]
  have hx := readCell_inBounds board hd
  cases hc : board (idx dRow) (idx dCol) with
  | none =>
    rw [hc] at hx
    refine ⟨decide (isLShape sRow sCol dRow dCol), ?_, ?_⟩
    · rw [← hpiece]
      simp [GamePiece.isLegalMove, hx]
    · simp [hx]
  | some q =>
    rw [hc] at hx
    by_cases hcol : p.color = q.getColor
    · refine ⟨false, by simp [GamePiece.isLegalMove, hx, hcol], ?_⟩
      constructor
      · intro h
        exact Bool.noConfusion h
      · rintro ⟨_, h | ⟨q1, h, hq1⟩⟩
        · rw [hx] at h
          exact Option.noConfusion (Option.some.inj h)
        · rw [hx] at h
          have : q1 = q := (Option.some.inj (Option.some.inj h)).symm
          subst this
          exact absurd hcol.symm hq1
    · refine ⟨decide (isLShape sRow sCol dRow dCol), ?_, ?_⟩
      · rw [← hpiece]
        simp [GamePiece.isLegalMove, hx, hcol]
      · simp only [decide_eq_true_eq]
        constructor
        · intro h
          exact ⟨h, Or.inr ⟨q, hx, fun h1 => hcol h1.symm⟩⟩
        · intro h
          exact h.1

/-- Scenario C: in the starting state the Knight attempt (7,1) to (5,0) is accepted,
with the Pawns of (6,0) and (6,1) in place: the Knight stands on (5,0) and Black is
to move. -/
theorem knight_isLegalPieceMove_witness :
    readCell GameBoard.new 6 0 = some (some ⟨.W, .Pawn⟩) ∧
      readCell GameBoard.new 6 1 = some (some ⟨.W, .Pawn⟩) ∧
      (∃ v, GamePiece.isLegalMove ⟨.W, .Knight⟩ 7 1 5 0 GameBoard.new = some v ∧
        (v = true ↔ isLShape 7 1 5 0 ∧
          (readCell GameBoard.new 5 0 = some none ∨
            ∃ q, readCell GameBoard.new 5 0 = some (some q) ∧
              q.getColor ≠ GamePiece.getColor ⟨.W, .Knight⟩))) ∧
      ∃ g1, Chess.new.advanceGame 7 1 5 0 = some g1 ∧
        readCell g1.chessBoard 5 0 = some (some ⟨.W, .Knight⟩) ∧
        g1.playerTurn = Color.B :=
  ⟨by decide, by decide,
    (knight_isLegalPieceMove GameBoard.new 7 1 5 0).2.2 ⟨.W, .Knight⟩ rfl (by decide),
    _, rfl, by decide, by decide⟩

/-- C9: on an empty destination the Pawn predicate returns `true` iff the destination
is on the column of the source, one row forward for the colour of the pawn; every
other move onto an empty square (two rows forward, sideways, backward, diagonal)
returns `false`. -/
theorem pawn_empty_destination (board : Board) (color : Color) (sRow sCol dRow dCol : Int)
    (hd : readCell board dRow dCol = some none) :
    Pawn.isLegalPieceMove color sRow sCol dRow dCol board =
        some (decide (dCol = sCol ∧ dRow = sRow + forwardStep color)) ∧
    (¬ (dCol = sCol ∧ dRow = sRow + forwardStep color) →
      Pawn.isLegalPieceMove color sRow sCol dRow dCol board = some false) := by
  have key : Pawn.isLegalPieceMove color sRow sCol dRow dCol board =
      some (decide (dCol = sCol ∧ dRow = sRow + forwardStep color)) := by
    unfold Pawn.isLegalPieceMove
    rw [hd]
    cases color with
    | W =>
      have e : (dCol = sCol ∧ dRow = sRow + forwardStep Color.W) ↔
          (sRow - 1 = dRow ∧ sCol = dCol) := by
        simp only [forwardStep]
        omega
      simp only [if_true]
      split_ifs with h
      · rw [decide_eq_true (e.mpr h)]
      · rw [decide_eq_false (fun h1 => h (e.mp h1))]
    | B =>
      have e : (dCol = sCol ∧ dRow = sRow + forwardStep Color.B) ↔
          (sRow + 1 = dRow ∧ sCol = dCol) := by
        simp only [forwardStep]
        omega
      have hne : ¬ (Color.B = Color.W) := by decide
      simp only [hne, if_false]
      split_ifs with h
      · rw [decide_eq_true (e.mpr h)]
      · rw [decide_eq_false (fun h1 => h (e.mp h1))]
  refine ⟨key, fun h => ?_⟩
  rw [key, decide_eq_false h]

/-- Scenarios A and D: in the starting state the Pawn attempt (6,0) to (5,0) is
accepted and Black is to move; on the board it leaves, the White Pawn predicate for
(5,0) to the empty (4,1) is `false`. -/
theorem pawn_empty_destination_witness :
    Pawn.isLegalPieceMove Color.W 6 0 5 0 GameBoard.new = some true ∧
      ∃ g1, Chess.new.advanceGame 6 0 5 0 = some g1 ∧ g1.playerTurn = Color.B ∧
        readCell g1.chessBoard 5 0 = some (some ⟨.W, .Pawn⟩) ∧
        readCell g1.chessBoard 4 1 = some none ∧
        Pawn.isLegalPieceMove Color.W 5 0 4 1 g1.chessBoard = some false :=
  ⟨(pawn_empty_destination GameBoard.new Color.W 6 0 5 0 (by decide)).1,
    _, rfl, by decide, by decide, by decide,
    (pawn_empty_destination _ Color.W 5 0 4 1 (by decide)).2 (by decide)⟩

/-- C10: on a destination that holds a piece of the other colour the Pawn predicate
returns `true` iff the destination is on a column next to the one of the source, one
row forward for the colour of the moving pawn; a step straight forward onto an
occupied square returns `false`. -/
theorem pawn_occupied_destination (board : Board) (color : Color) (q : GamePiece)
    (sRow sCol dRow dCol : Int)
    (hd : readCell board dRow dCol = some (some q)) (hq : q.getColor ≠ color) :
    Pawn.isLegalPieceMove color sRow sCol dRow dCol board =
        some (decide ((dCol = sCol + 1 ∨ dCol = sCol - 1) ∧
          dRow = sRow + forwardStep color)) ∧
    (dCol = sCol → Pawn.isLegalPieceMove color sRow sCol dRow dCol board = some false) := by
  have key : Pawn.isLegalPieceMove color sRow sCol dRow dCol board =
      some (decide ((dCol = sCol + 1 ∨ dCol = sCol - 1) ∧
        dRow = sRow + forwardStep color)) := by
    unfold Pawn.isLegalPieceMove
    rw [hd]
    cases color with
    | W =>
      have hqc : ¬ (q.getColor = Color.W) := hq
      have e : ((dCol = sCol + 1 ∨ dCol = sCol - 1) ∧ dRow = sRow + forwardStep Color.W) ↔
          ((sCol - 1 = dCol ∨ sCol + 1 = dCol) ∧ sRow - 1 = dRow) := by
        simp only [forwardStep]
        omega
      simp only [hqc, if_false]
      split_ifs with h1 h2
      · rw [decide_eq_true (e.mpr ⟨h1, h2⟩)]
      · rw [decide_eq_false (fun h => h2 (e.mp h).2)]
      · rw [decide_eq_false (fun h => h1 (e.mp h).1)]
    | B =>
      have hqc : q.getColor = Color.W := by
        cases hc : q.getColor with
        | W => rfl
        | B => exact absurd hc hq
      have e : ((dCol = sCol + 1 ∨ dCol = sCol - 1) ∧ dRow = sRow + forwardStep Color.B) ↔
          ((sCol - 1 = dCol ∨ sCol + 1 = dCol) ∧ sRow + 1 = dRow) := by
        simp only [forwardStep]
        omega
      simp only [hqc, if_true]
      split_ifs with h1 h2
      · rw [decide_eq_true (e.mpr ⟨h1, h2⟩)]
      · rw [decide_eq_false (fun h => h2 (e.mp h).2)]
      · rw [decide_eq_false (fun h => h1 (e.mp h).1)]
  refine ⟨key, fun h => ?_⟩
  rw [key, decide_eq_false (by omega)]

/-- After the four accepted attempts (6,0) to (5,0), (1,1) to (2,1), (5,0) to (4,0)
and (2,1) to (3,1) from the starting state, the White Pawn of (4,0) faces the Black
Pawn of (3,1): its predicate for (4,0) to (3,1) is the value of "one column aside
and one row forward" there. -/
theorem pawn_occupied_destination_witness :
    ∃ g4, (((Chess.new.advanceGame 6 0 5 0).bind (fun g => g.advanceGame 1 1 2 1)).bind
        (fun g => g.advanceGame 5 0 4 0)).bind (fun g => g.advanceGame 2 1 3 1) = some g4 ∧
      readCell g4.chessBoard 4 0 = some (some ⟨.W, .Pawn⟩) ∧
      readCell g4.chessBoard 3 1 = some (some ⟨.B, .Pawn⟩) ∧
      Pawn.isLegalPieceMove Color.W 4 0 3 1 g4.chessBoard =
        some (decide (((1 : Int) = 0 + 1 ∨ (1 : Int) = 0 - 1) ∧
          (3 : Int) = 4 + forwardStep Color.W)) :=
  ⟨_, rfl, by decide, by decide,
    (pawn_occupied_destination _ Color.W ⟨.B, .Pawn⟩ 4 0 3 1 (by decide) (by decide)).1⟩

/-! ## Counting squares -/

/-- A loop that adds `f x` to its counter for every `x` of a list adds the sum. -/
theorem foldl_add_eq_sum {α : Type} (f : α → Nat) (l : List α) :
    ∀ a : Nat, l.foldl (fun count x => count + f x) a = a + (l.map f).sum := by
  induction l with
  | nil =>
    intro a
    simp
  | cons x l ih =>
    intro a
    simp only [List.foldl_cons, List.map_cons, List.sum_cons, ih]
    omega

/-- The test `getName() == 'K'` of `isGameOver` holds for the Kings only. -/
theorem getName_eq_K (p : GamePiece) : p.getName = 'K' ↔ p.kind = Kind.King := by
  unfold GamePiece.getName
  cases p.kind <;> decide

/-- The count of `isGameOver` is the number of squares that hold a King. -/
theorem kingCount_eq_card (board : Board) :
    kingCount board = (squaresWhere isKing board).card := by
  have hbody : ∀ r : Fin 8,
      (fun (count : Nat) (c : Fin 8) =>
        match board r c with
        | none => count
        | some p => if p.getName = 'K' then count + 1 else count) =
      fun count c => count + (if isKing (board r c) = true then 1 else 0) := by
    intro r
    funext count c
    cases h : board r c with
    | none => simp [isKing]
    | some p =>
      by_cases hk : p.kind = Kind.King
      · simp [isKing, hk, (getName_eq_K p).mpr hk]
      · have hn : ¬ p.getName = 'K' := fun h1 => hk ((getName_eq_K p).mp h1)
        simp [isKing, hk, hn]
  unfold kingCount
  simp only [hbody, foldl_add_eq_sum]
  unfold squaresWhere
  rw [Finset.card_filter, Fintype.sum_prod_type, Fin.sum_univ_def, zero_add]
  congr 1

/-- Two families of numbers that agree off two points: their sums differ by the values
at the two points. -/
theorem sum_eq_of_agree_off_two {α : Type} [Fintype α] [DecidableEq α] (f g : α → Nat)
    (a b : α) (hab : a ≠ b) (h : ∀ x, x ≠ a → x ≠ b → f x = g x) :
    (∑ x, f x) + g a + g b = (∑ x, g x) + f a + f b := by
  have hb : b ∈ (Finset.univ : Finset α).erase a :=
    Finset.mem_erase.mpr ⟨hab.symm, Finset.mem_univ b⟩
  have hf : ∑ x, f x = f a + (f b + ∑ x ∈ (Finset.univ.erase a).erase b, f x) := by
    rw [Finset.add_sum_erase _ _ hb, Finset.add_sum_erase _ _ (Finset.mem_univ a)]
  have hg : ∑ x, g x = g a + (g b + ∑ x ∈ (Finset.univ.erase a).erase b, g x) := by
    rw [Finset.add_sum_erase _ _ hb, Finset.add_sum_erase _ _ (Finset.mem_univ a)]
  have hrest : ∑ x ∈ (Finset.univ.erase a).erase b, f x =
      ∑ x ∈ (Finset.univ.erase a).erase b, g x := by
    apply Finset.sum_congr rfl
    intro x hx
    have h1 := Finset.mem_erase.mp hx
    have h2 := Finset.mem_erase.mp h1.2
    exact h x h2.1 h1.1
  rw [hf, hg, hrest]
  omega

/-- The squares that satisfy `P` after a piece has gone from the square `s` to the
square `d`, for a `P` that no empty cell satisfies: one fewer when the cell of `d`
satisfied `P` before, as many otherwise. -/
theorem card_squaresWhere_move (P : Option GamePiece → Bool) (hP : P none = false)
    (board board1 : Board) (s d : Fin 8 × Fin 8) (p : GamePiece) (hsd : s ≠ d)
    (hs : board s.1 s.2 = some p) (hs1 : board1 s.1 s.2 = none)
    (hd1 : board1 d.1 d.2 = some p)
    (hrest : ∀ sq : Fin 8 × Fin 8, sq ≠ s → sq ≠ d → board1 sq.1 sq.2 = board sq.1 sq.2) :
    (squaresWhere P board1).card + (if P (board d.1 d.2) = true then 1 else 0) =
      (squaresWhere P board).card := by
  unfold squaresWhere
  rw [Finset.card_filter, Finset.card_filter]
  have key := sum_eq_of_agree_off_two
    (fun sq : Fin 8 × Fin 8 => if P (board1 sq.1 sq.2) = true then 1 else 0)
    (fun sq : Fin 8 × Fin 8 => if P (board sq.1 sq.2) = true then 1 else 0) s d hsd
    (fun x h1 h2 => by simp only [hrest x h1 h2])
  simp only [hs, hs1, hd1, hP] at key
  simp only [Bool.false_eq_true, if_false] at key
  omega

/-- An accepted attempt, cell by cell of the grid: the piece `p` of the source cell,
of the colour to move, is in the destination cell, which held no piece of that
colour; the source cell is empty; the other cells are as before; the turn differs. -/
theorem advanceGame_cells_of_accepts {g : Chess} {sRow sCol dRow dCol : Int}
    (h : g.accepts sRow sCol dRow dCol) :
    ∃ p g1, g.advanceGame sRow sCol dRow dCol = some g1 ∧ p.getColor = g.playerTurn ∧
      g1.playerTurn ≠ g.playerTurn ∧ inBounds sRow sCol ∧ inBounds dRow dCol ∧
      (idx sRow, idx sCol) ≠ (idx dRow, idx dCol) ∧
      g.chessBoard (idx sRow) (idx sCol) = some p ∧
      (∀ q, g.chessBoard (idx dRow) (idx dCol) = some q → q.getColor ≠ p.getColor) ∧
      g1.chessBoard (idx sRow) (idx sCol) = none ∧
      g1.chessBoard (idx dRow) (idx dCol) = some p ∧
      ∀ sq : Fin 8 × Fin 8, sq ≠ (idx sRow, idx sCol) → sq ≠ (idx dRow, idx dCol) →
        g1.chessBoard sq.1 sq.2 = g.chessBoard sq.1 sq.2 := by
  obtain ⟨p, hs, hc, hl⟩ := h
  obtain ⟨board1, board2, hw1, hw2, hadv⟩ := advanceGame_of_legal hs hc hl
  have hsb := inBounds_of_readCell hs
  have hdest := dest_of_isLegalMove hl
  have hdb : inBounds dRow dCol := by
    rcases hdest with h | ⟨q, h, _⟩ <;> exact inBounds_of_readCell h
  have hne := ne_of_isLegalMove hs hl
  rw [writeCell_inBounds _ _ hdb] at hw1
  have e1 := Option.some.inj hw1
  subst e1
  rw [writeCell_inBounds _ _ hsb] at hw2
  have e2 := Option.some.inj hw2
  subst e2
  have hidx : (idx sRow, idx sCol) ≠ (idx dRow, idx dCol) := by
    intro he
    have h1 := (idx_inj hsb.1 hsb.2.1 hdb.1 hdb.2.1).mp (congrArg Prod.fst he)
    have h2 := (idx_inj hsb.2.2.1 hsb.2.2.2 hdb.2.2.1 hdb.2.2.2).mp (congrArg Prod.snd he)
    exact hne ⟨h1.symm, h2.symm⟩
  have hidx1 : ¬ (idx dRow = idx sRow ∧ idx dCol = idx sCol) := by
    rintro ⟨h1, h2⟩
    exact hidx (by rw [h1, h2])
  rw [readCell_inBounds _ hsb] at hs
  have hs1 := Option.some.inj hs
  refine ⟨p, _, hadv, hc, changePlayerTurn_playerTurn _, hsb, hdb, hidx, hs1, ?_, ?_, ?_, ?_⟩
  · intro q hq
    rcases hdest with h | ⟨q1, h, hq1⟩
    · rw [readCell_inBounds _ hdb, hq] at h
      exact Option.noConfusion (Option.some.inj h)
    · rw [readCell_inBounds _ hdb, hq] at h
      have : q = q1 := Option.some.inj (Option.some.inj h)
      rw [this]
      exact hq1
  · rw [changePlayerTurn_chessBoard]
    simp
  · rw [changePlayerTurn_chessBoard]
    simp [hidx1]
  · intro sq h1 h2
    rw [changePlayerTurn_chessBoard]
    have h3 : ¬ (sq.1 = idx sRow ∧ sq.2 = idx sCol) := by
      rintro ⟨a, b⟩
      exact h1 (Prod.ext a b)
    have h4 : ¬ (sq.1 = idx dRow ∧ sq.2 = idx dCol) := by
      rintro ⟨a, b⟩
      exact h2 (Prod.ext a b)
    simp [h3, h4]

/-- The squares that satisfy `P` after an accepted attempt, for a `P` that no empty
cell satisfies: one fewer when the destination cell satisfied `P` before, as many
otherwise. -/
theorem card_squaresWhere_of_accepts (P : Option GamePiece → Bool) (hP : P none = false)
    {g g1 : Chess} {sRow sCol dRow dCol : Int}
    (h : g.accepts sRow sCol dRow dCol)
    (hadv : g.advanceGame sRow sCol dRow dCol = some g1) :
    (squaresWhere P g1.chessBoard).card +
        (if P (g.chessBoard (idx dRow) (idx dCol)) = true then 1 else 0) =
      (squaresWhere P g.chessBoard).card := by
  obtain ⟨p, g2, hadv2, _, _, _, _, hidx, hs, _, hs1, hd1, hrest⟩ :=
    advanceGame_cells_of_accepts h
  rw [hadv] at hadv2
  have e := Option.some.inj hadv2
  subst e
  exact card_squaresWhere_move P hP g.chessBoard g1.chessBoard (idx sRow, idx sCol)
    (idx dRow, idx dCol) p hidx hs hs1 hd1 hrest

/-! ## The end of the game -/

/-- C11: `isGameOver` returns `true` iff the number of squares that hold a King, of
either colour, is not 2.  It is `false` on the starting layout and `true` on the
starting layout with the King of (0,3), or the King of (7,3), taken off. -/
theorem isGameOver_iff (g : Chess) :
    (g.isGameOver = true ↔ (squaresWhere isKing g.chessBoard).card ≠ 2) ∧
      Chess.new.isGameOver = false ∧
      (writeCell GameBoard.new 0 3 none).map (fun b => Chess.isGameOver ⟨b, Color.W⟩) =
        some true ∧
      (writeCell GameBoard.new 7 3 none).map (fun b => Chess.isGameOver ⟨b, Color.W⟩) =
        some true := by
  refine ⟨?_, by decide, by decide, by decide⟩
  unfold Chess.isGameOver
  rw [kingCount_eq_card]
  by_cases h : (squaresWhere isKing g.chessBoard).card = 2
  · simp [h]
  · simp [h]

/-- The Kings of the board are the White Kings and the Black Kings. -/
theorem card_isKing_eq (board : Board) :
    (squaresWhere isKing board).card =
      (squaresWhere (isKingOf Color.W) board).card +
        (squaresWhere (isKingOf Color.B) board).card := by
  unfold squaresWhere
  rw [Finset.card_filter, Finset.card_filter, Finset.card_filter, ← Finset.sum_add_distrib]
  apply Finset.sum_congr rfl
  intro sq _
  cases h : board sq.1 sq.2 with
  | none => simp [isKingOf, isKing, isOfColor]
  | some p =>
    cases hc : p.color <;> cases hk : p.kind <;> simp [isKingOf, isKing, isOfColor, hc, hk]

/-- The state does not end the loop iff two Kings are on the board. -/
theorem isGameOver_eq_false_iff (g : Chess) :
    g.isGameOver = false ↔ (squaresWhere isKing g.chessBoard).card = 2 := by
  unfold Chess.isGameOver
  rw [kingCount_eq_card]
  by_cases h : (squaresWhere isKing g.chessBoard).card = 2
  · simp [h]
  · simp [h]

/-- At the start of every round of the loop of `runGame` each side has one King. -/
theorem kings_of_inPlay {g : Chess} (h : g.InPlay) :
    (squaresWhere (isKingOf Color.W) g.chessBoard).card = 1 ∧
      (squaresWhere (isKingOf Color.B) g.chessBoard).card = 1 := by
  induction h with
  | start => exact ⟨by decide, by decide⟩
  | @next g0 g1 sRow sCol dRow dCol _ hadv hover ih =>
    rcases rejects_or_accepts hadv with ⟨hr, _⟩ | ⟨ha, _⟩
    · rw [advanceGame_of_rejects hr] at hadv
      rw [← Option.some.inj hadv]
      exact ih
    · have hW := card_squaresWhere_of_accepts (isKingOf Color.W) rfl ha hadv
      have hB := card_squaresWhere_of_accepts (isKingOf Color.B) rfl ha hadv
      have h2 := (isGameOver_eq_false_iff g1).mp hover
      rw [card_isKing_eq] at h2
      obtain ⟨ihW, ihB⟩ := ih
      rw [ihW] at hW
      rw [ihB] at hB
      constructor
      · split_ifs at hW hB <;> omega
      · split_ifs at hW hB <;> omega

/-- Of three colours two are the same. -/
theorem color_eq_of_ne {a b c : Color} (h1 : a ≠ b) (h2 : c ≠ b) : a = c := by
  cases a <;> cases b <;> cases c <;> first | rfl | exact absurd rfl h1 | exact absurd rfl h2

/-- The round that ends the loop of `runGame`: the attempt was accepted, it took a
King of the side that did not move, the side that moved keeps its one King, and a
change of turn after it gives the side that moved. -/
theorem gameOver_of_inPlay {g0 g1 : Chess} {sRow sCol dRow dCol : Int} (h : g0.InPlay)
    (hadv : g0.advanceGame sRow sCol dRow dCol = some g1) (hover : g1.isGameOver = true) :
    g0.accepts sRow sCol dRow dCol ∧
      (∃ p k, readCell g0.chessBoard sRow sCol = some (some p) ∧
        p.getColor = g0.playerTurn ∧
        readCell g0.chessBoard dRow dCol = some (some k) ∧ k.kind = Kind.King ∧
        k.getColor ≠ g0.playerTurn) ∧
      (Chess.changePlayerTurn g1).playerTurn = g0.playerTurn ∧
      g1.playerTurn ≠ g0.playerTurn ∧
      (squaresWhere isKing g1.chessBoard).card = 1 ∧
      (squaresWhere (isKingOf g0.playerTurn) g1.chessBoard).card = 1 ∧
      ∀ c, c ≠ g0.playerTurn → (squaresWhere (isKingOf c) g1.chessBoard).card = 0 := by
  obtain ⟨invW, invB⟩ := kings_of_inPlay h
  have inv2 : (squaresWhere isKing g0.chessBoard).card = 2 := by
    rw [card_isKing_eq, invW, invB]
  have hover1 : (squaresWhere isKing g1.chessBoard).card ≠ 2 := by
    intro h2
    rw [(isGameOver_eq_false_iff g1).mpr h2] at hover
    exact Bool.noConfusion hover
  rcases rejects_or_accepts hadv with ⟨hr, _⟩ | ⟨ha, _⟩
  · rw [advanceGame_of_rejects hr] at hadv
    rw [← Option.some.inj hadv] at hover1
    exact absurd inv2 hover1
  · obtain ⟨p, g2, hadv2, hc, hturn, hsb, hdb, _, hs, hdest, _, _, _⟩ :=
      advanceGame_cells_of_accepts ha
    rw [hadv] at hadv2
    have e := Option.some.inj hadv2
    subst e
    have hK := card_squaresWhere_of_accepts isKing rfl ha hadv
    rw [inv2] at hK
    have hking : isKing (g0.chessBoard (idx dRow) (idx dCol)) = true := by
      by_contra hn
      rw [if_neg hn] at hK
      exact hover1 hK
    rw [if_pos hking] at hK
    cases hd : g0.chessBoard (idx dRow) (idx dCol) with
    | none =>
      rw [hd] at hking
      exact Bool.noConfusion hking
    | some k =>
      rw [hd] at hking
      have hkk : k.kind = Kind.King := by simpa [isKing] using hking
      have hkc : k.getColor ≠ g0.playerTurn := by
        rw [← hc]
        exact hdest k hd
      have hcount : ∀ c, (squaresWhere (isKingOf c) g1.chessBoard).card +
          (if isKingOf c (some k) = true then 1 else 0) = 1 := by
        intro c
        have hcc := card_squaresWhere_of_accepts (isKingOf c) rfl ha hadv
        rw [hd] at hcc
        cases c
        · rw [invW] at hcc
          exact hcc
        · rw [invB] at hcc
          exact hcc
      refine ⟨ha, ⟨p, k, ?_, hc, ?_, hkk, hkc⟩, ?_, hturn, by omega, ?_, ?_⟩
      · rw [readCell_inBounds _ hsb, hs]
      · rw [readCell_inBounds _ hdb, hd]
      · exact color_eq_of_ne (changePlayerTurn_playerTurn g1) hturn.symm
      · have hcc := hcount g0.playerTurn
        have hf : isKingOf g0.playerTurn (some k) = false := by
          have : ¬ k.color = g0.playerTurn := hkc
          simp [isKingOf, isOfColor, this]
        rw [hf] at hcc
        simpa using hcc
      · intro c hcne
        have hcc := hcount c
        have hkceq : k.color = c := color_eq_of_ne hkc hcne
        have ht : isKingOf c (some k) = true := by
          simp [isKingOf, isKing, isOfColor, hkk, hkceq]
        rw [if_pos ht] at hcc
        omega

/-- The state the loop of `runGame` ends in, from a state at the start of a round: it
comes from a move attempt made at the start of a round, and `isGameOver` holds in it. -/
theorem runLoop_last (input : List (List Char × List Char)) :
    ∀ g : Chess, g.InPlay → ∀ g1, g.runLoop input = some g1 →
      ∃ g0 sRow sCol dRow dCol, Chess.InPlay g0 ∧
        g0.advanceGame sRow sCol dRow dCol = some g1 ∧ g1.isGameOver = true := by
  induction input with
  | nil =>
    intro g _ g1 h
    exact Option.noConfusion h
  | cons line rest ih =>
    intro g hg g1 h
    obtain ⟨source, dest⟩ := line
    rw [Chess.runLoop] at h
    cases hgood : goodInput source dest with
    | none => simp [hgood] at h
    | some v =>
      cases v with
      | false =>
        simp only [hgood] at h
        exact ih g hg g1 h
      | true =>
        simp only [hgood] at h
        cases hsq : inputSquares source dest with
        | none => simp [hsq] at h
        | some sq =>
          obtain ⟨sRow, sCol, dRow, dCol⟩ := sq
          simp only [hsq] at h
          cases hadv : g.advanceGame sRow sCol dRow dCol with
          | none => simp [hadv] at h
          | some g2 =>
            simp only [hadv] at h
            by_cases hover : g2.isGameOver = true
            · rw [if_pos hover] at h
              have e := Option.some.inj h
              subst e
              exact ⟨g, sRow, sCol, dRow, dCol, hg, hadv, hover⟩
            · rw [if_neg hover] at h
              have hover1 : g2.isGameOver = false := by
                cases hb : g2.isGameOver with
                | false => rfl
                | true => exact absurd hb hover
              exact ih g2 (Chess.InPlay.next sRow sCol dRow dCol hg hadv hover1) g1 h

/-- The winner `runGame` of a new game reports, with the round that ended the loop. -/
theorem runGame_last {input : List (List Char × List Char)} {w : Color}
    (h : Chess.new.runGame input = some w) :
    ∃ g0 sRow sCol dRow dCol g1, Chess.InPlay g0 ∧
      g0.advanceGame sRow sCol dRow dCol = some g1 ∧ g1.isGameOver = true ∧
      Chess.new.runLoop input = some g1 ∧ w = (Chess.changePlayerTurn g1).playerTurn := by
  unfold Chess.runGame at h
  cases hl : Chess.new.runLoop input with
  | none => simp [hl] at h
  | some g1 =>
    simp only [hl] at h
    obtain ⟨g0, sRow, sCol, dRow, dCol, h0, hadv, hover⟩ :=
      runLoop_last input Chess.new Chess.InPlay.start g1 hl
    exact ⟨g0, sRow, sCol, dRow, dCol, g1, h0, hadv, hover, rfl, (Option.some.inj h).symm⟩

/-- C12 as stated fails.  On the input `knightRaid` the seventh attempt, (2,2) to
(0,3), is made with White to move and is accepted; it ends the loop with Black to
move next; the winner `runGame` reports is White, the side that did just move. -/
theorem runGame_winner_counterexample :
    knightRaid.map (fun l => inputSquares l.1 l.2) =
        [some (7, 6, 5, 5), some (1, 0, 2, 0), some (5, 5, 3, 4), some (2, 0, 3, 0),
          some (3, 4, 2, 2), some (3, 0, 4, 0), some (2, 2, 0, 3)] ∧
      (Chess.new.attempts [(7, 6, 5, 5), (1, 0, 2, 0), (5, 5, 3, 4), (2, 0, 3, 0),
          (3, 4, 2, 2), (3, 0, 4, 0)]).map
        (fun g => (g.playerTurn, decide (g.accepts 2 2 0 3))) = some (Color.W, true) ∧
      (Chess.new.runLoop knightRaid).map (fun g => g.playerTurn) = some Color.B ∧
      Chess.new.runGame knightRaid = some Color.W ∧
      Chess.new.runGame knightRaid ≠ some Color.B := by
  refine ⟨by decide, by decide, by decide, by decide, by decide⟩

/-- C12, as the code has it: when `runGame` of a new game ends, the winner it reports
is the side that made the last applied move, the side to move when the attempt that
ended the loop was made and accepted; it is not the side whose turn would have come
next. -/
theorem runGame_winner (input : List (List Char × List Char)) (w : Color)
    (h : Chess.new.runGame input = some w) :
    ∃ g0 sRow sCol dRow dCol g1, Chess.InPlay g0 ∧ g0.accepts sRow sCol dRow dCol ∧
      g0.advanceGame sRow sCol dRow dCol = some g1 ∧
      Chess.new.runLoop input = some g1 ∧
      w = g0.playerTurn ∧ w ≠ g1.playerTurn := by
  obtain ⟨g0, sRow, sCol, dRow, dCol, g1, h0, hadv, hover, hl, hw⟩ := runGame_last h
  obtain ⟨ha, _, hturn, hne, _⟩ := gameOver_of_inPlay h0 hadv hover
  refine ⟨g0, sRow, sCol, dRow, dCol, g1, h0, ha, hadv, hl, hw.trans hturn, ?_⟩
  rw [hw, hturn]
  exact hne.symm

/-- On the input `knightRaid` the game ends and the winner is White. -/
theorem runGame_winner_witness :
    Chess.new.runGame knightRaid = some Color.W ∧
      ∃ g0 sRow sCol dRow dCol g1, Chess.InPlay g0 ∧ g0.accepts sRow sCol dRow dCol ∧
        g0.advanceGame sRow sCol dRow dCol = some g1 ∧
        Chess.new.runLoop knightRaid = some g1 ∧
        Color.W = g0.playerTurn ∧ Color.W ≠ g1.playerTurn :=
  ⟨by decide, runGame_winner knightRaid Color.W (by decide)⟩

/-- C13: the attempt after which `isGameOver` is `true` for the first time in a game
played from the starting state was accepted and took a King, a King of the side that
did not move; and the winner `runGame` reports, the side to move after one more
change of turn, is the side that made this move. -/
theorem runGame_capture :
    (∀ (g0 g1 : Chess) (sRow sCol dRow dCol : Int), Chess.InPlay g0 →
      g0.advanceGame sRow sCol dRow dCol = some g1 → g1.isGameOver = true →
      g0.accepts sRow sCol dRow dCol ∧
        (∃ p k, readCell g0.chessBoard sRow sCol = some (some p) ∧
          p.getColor = g0.playerTurn ∧
          readCell g0.chessBoard dRow dCol = some (some k) ∧ k.kind = Kind.King ∧
          k.getColor ≠ g0.playerTurn) ∧
        (Chess.changePlayerTurn g1).playerTurn = g0.playerTurn) ∧
    (∀ (input : List (List Char × List Char)) (w : Color),
      Chess.new.runGame input = some w →
      ∃ g0 sRow sCol dRow dCol g1 p k, Chess.InPlay g0 ∧
        g0.accepts sRow sCol dRow dCol ∧
        g0.advanceGame sRow sCol dRow dCol = some g1 ∧
        Chess.new.runLoop input = some g1 ∧
        readCell g0.chessBoard sRow sCol = some (some p) ∧
        readCell g0.chessBoard dRow dCol = some (some k) ∧ k.kind = Kind.King ∧
        k.getColor ≠ p.getColor ∧ w = p.getColor) := by
  constructor
  · intro g0 g1 sRow sCol dRow dCol h0 hadv hover
    obtain ⟨ha, hpk, hturn, _⟩ := gameOver_of_inPlay h0 hadv hover
    exact ⟨ha, hpk, hturn⟩
  · intro input w h
    obtain ⟨g0, sRow, sCol, dRow, dCol, g1, h0, hadv, hover, hl, hw⟩ := runGame_last h
    obtain ⟨ha, ⟨p, k, hp, hpc, hk, hkk, hkc⟩, hturn, _⟩ := gameOver_of_inPlay h0 hadv hover
    refine ⟨g0, sRow, sCol, dRow, dCol, g1, p, k, h0, ha, hadv, hl, hp, hk, hkk, ?_, ?_⟩
    · rw [hpc]
      exact hkc
    · rw [hw, hturn, hpc]

/-- On the input `knightRaid` the game ends with the capture of a King by a piece of
White, the winner. -/
theorem runGame_capture_witness :
    Chess.new.runGame knightRaid = some Color.W ∧
      ∃ g0 sRow sCol dRow dCol g1 p k, Chess.InPlay g0 ∧
        g0.accepts sRow sCol dRow dCol ∧
        g0.advanceGame sRow sCol dRow dCol = some g1 ∧
        Chess.new.runLoop knightRaid = some g1 ∧
        readCell g0.chessBoard sRow sCol = some (some p) ∧
        readCell g0.chessBoard dRow dCol = some (some k) ∧ k.kind = Kind.King ∧
        k.getColor ≠ p.getColor ∧ Color.W = p.getColor :=
  ⟨by decide, runGame_capture.2 knightRaid Color.W (by decide)⟩

/-- C19: in every state `runGame` of a new game is in at the start of a round of its
loop, each side has exactly one King, the side to move among them.  In the state the
loop ends in exactly one King is on the board: it belongs to the winner `runGame`
reports, and every other side has none.  So no side ever has two Kings. -/
theorem kings_invariant :
    (∀ g : Chess, Chess.InPlay g →
      (squaresWhere (isKingOf Color.W) g.chessBoard).card = 1 ∧
        (squaresWhere (isKingOf Color.B) g.chessBoard).card = 1 ∧
        (squaresWhere (isKingOf g.playerTurn) g.chessBoard).card = 1) ∧
    (∀ (g0 g1 : Chess) (sRow sCol dRow dCol : Int), Chess.InPlay g0 →
      g0.advanceGame sRow sCol dRow dCol = some g1 → g1.isGameOver = true →
      (squaresWhere isKing g1.chessBoard).card = 1 ∧
        (squaresWhere (isKingOf (Chess.changePlayerTurn g1).playerTurn)
          g1.chessBoard).card = 1 ∧
        ∀ c, c ≠ (Chess.changePlayerTurn g1).playerTurn →
          (squaresWhere (isKingOf c) g1.chessBoard).card = 0) ∧
    (∀ (input : List (List Char × List Char)) (w : Color),
      Chess.new.runGame input = some w →
      ∃ g1, Chess.new.runLoop input = some g1 ∧
        (squaresWhere isKing g1.chessBoard).card = 1 ∧
        (squaresWhere (isKingOf w) g1.chessBoard).card = 1 ∧
        ∀ c, c ≠ w → (squaresWhere (isKingOf c) g1.chessBoard).card = 0) := by
  refine ⟨?_, ?_, ?_⟩
  · intro g h
    obtain ⟨hW, hB⟩ := kings_of_inPlay h
    refine ⟨hW, hB, ?_⟩
    cases g.playerTurn
    · exact hW
    · exact hB
  · intro g0 g1 sRow sCol dRow dCol h0 hadv hover
    obtain ⟨_, _, hturn, _, h1, h2, h3⟩ := gameOver_of_inPlay h0 hadv hover
    rw [hturn]
    exact ⟨h1, h2, h3⟩
  · intro input w h
    obtain ⟨g0, sRow, sCol, dRow, dCol, g1, h0, hadv, hover, hl, hw⟩ := runGame_last h
    obtain ⟨_, _, hturn, _, h1, h2, h3⟩ := gameOver_of_inPlay h0 hadv hover
    rw [hw, hturn]
    exact ⟨g1, hl, h1, h2, h3⟩

/-- The starting state has one King of each side; the game of the input `knightRaid`
ends with one King on the board, a White one, White being the winner. -/
theorem kings_invariant_witness :
    ((squaresWhere (isKingOf Color.W) Chess.new.chessBoard).card = 1 ∧
        (squaresWhere (isKingOf Color.B) Chess.new.chessBoard).card = 1 ∧
        (squaresWhere (isKingOf Chess.new.playerTurn) Chess.new.chessBoard).card = 1) ∧
      Chess.new.runGame knightRaid = some Color.W ∧
      ∃ g1, Chess.new.runLoop knightRaid = some g1 ∧
        (squaresWhere isKing g1.chessBoard).card = 1 ∧
        (squaresWhere (isKingOf Color.W) g1.chessBoard).card = 1 ∧
        ∀ c, c ≠ Color.W → (squaresWhere (isKingOf c) g1.chessBoard).card = 0 :=
  ⟨kings_invariant.1 Chess.new Chess.InPlay.start, by decide,
    kings_invariant.2.2 knightRaid Color.W (by decide)⟩

/-! ## Reads inside the grid -/

/-- A result of the loop of `isMoveDiagonal` stays the result with more fuel. -/
theorem diagonalLoop_mono (board : Board) (dRow rd cd : Int) (v : Bool) :
    ∀ (fuel : Nat) (r c : Int), diagonalLoop board dRow rd cd fuel r c = some v →
      diagonalLoop board dRow rd cd (fuel + 1) r c = some v := by
  intro fuel
  induction fuel with
  | zero =>
    intro r c h
    exact Option.noConfusion h
  | succ f ih =>
    intro r c h
    rw [diagonalLoop] at h ⊢
    by_cases hr : r = dRow
    · simp only [hr, ne_eq, not_true_eq_false, if_false] at h ⊢
      exact h
    · simp only [ne_eq, hr, not_false_eq_true, if_true] at h ⊢
      cases hx : readCell board r c with
      | none => simp [hx] at h
      | some x =>
        cases x with
        | some q =>
          simp only [hx] at h ⊢
          exact h
        | none =>
          simp only [hx] at h ⊢
          exact ih _ _ h

/-- Between two different squares of the grid the loop of `isMoveDiagonal` ends
within seven tests of its condition. -/
theorem isMoveDiagonalFuel_seven (board : Board) {sRow sCol dRow dCol : Int}
    (hs : inBounds sRow sCol) (hd : inBounds dRow dCol)
    (hne : ¬ (dRow = sRow ∧ dCol = sCol)) :
    ∃ v, GamePiece.isMoveDiagonalFuel 7 sRow sCol dRow dCol board = some v := by
  obtain ⟨s0, s8, t0, t8⟩ := hs
  obtain ⟨d0, d8, e0, e8⟩ := hd
  unfold GamePiece.isMoveDiagonalFuel
  by_cases hdiag : dCol - sCol = dRow - sRow ∨ dCol - sCol = sRow - dRow
  · rw [if_pos hdiag]
    have hloop : ∀ (rd cd : Int) (n : Nat), (rd = 1 ∨ rd = -1) → (cd = 1 ∨ cd = -1) →
        0 < n → dRow = sRow + n * rd → dCol = sCol + n * cd →
        ∃ v, diagonalLoop board dRow rd cd 7 (sRow + rd) (sCol + cd) = some v := by
      intro rd cd n hrd hcd hn h1 h2
      obtain ⟨m, rfl⟩ := Nat.exists_eq_succ_of_ne_zero (Nat.pos_iff_ne_zero.mp hn)
      push_cast at h1 h2
      obtain ⟨v, hv, _⟩ := diagonalLoop_spec board dRow rd cd hrd m 7
        (sRow + rd) (sCol + cd) (by rcases hrd with rfl | rfl <;> omega)
        (by rw [h1]; ring)
        (fun j j0 jm => by
          rcases hrd with rfl | rfl <;> rcases hcd with rfl | rfl <;>
            (unfold inBounds; omega))
      exact ⟨v, hv⟩
    by_cases hr : dRow - sRow > 0
    · by_cases hc : dCol - sCol > 0
      · simp only [if_pos hr, if_pos hc]
        exact hloop 1 1 (dRow - sRow).toNat (Or.inl rfl) (Or.inl rfl) (by omega)
          (by omega) (by omega)
      · simp only [if_pos hr, if_neg hc]
        exact hloop 1 (-1) (dRow - sRow).toNat (Or.inl rfl) (Or.inr rfl) (by omega)
          (by omega) (by omega)
    · by_cases hc : dCol - sCol > 0
      · simp only [if_neg hr, if_pos hc]
        exact hloop (-1) 1 (sRow - dRow).toNat (Or.inr rfl) (Or.inl rfl) (by omega)
          (by omega) (by omega)
      · simp only [if_neg hr, if_neg hc]
        exact hloop (-1) (-1) (sRow - dRow).toNat (Or.inr rfl) (Or.inr rfl) (by omega)
          (by omega) (by omega)
  · rw [if_neg hdiag]
    exact ⟨false, rfl⟩

/-- A result of `isMoveDiagonalFuel` with fuel 7 is the result of `isMoveDiagonal`. -/
theorem isMoveDiagonal_of_seven (board : Board) {sRow sCol dRow dCol : Int} {v : Bool}
    (h : GamePiece.isMoveDiagonalFuel 7 sRow sCol dRow dCol board = some v) :
    GamePiece.isMoveDiagonal sRow sCol dRow dCol board = some v := by
  unfold GamePiece.isMoveDiagonal
  unfold GamePiece.isMoveDiagonalFuel at h ⊢
  split
  · rename_i hdiag
    rw [if_pos hdiag] at h
    exact diagonalLoop_mono _ _ _ _ _ _ _ _ (diagonalLoop_mono _ _ _ _ _ _ _ _ h)
  · rename_i hdiag
    rw [if_neg hdiag] at h
    exact h

/-- On two different squares of the grid every `isLegalPieceMove` returns. -/
theorem isLegalPieceMove_isSome (board : Board) (p : GamePiece) {sRow sCol dRow dCol : Int}
    (hs : inBounds sRow sCol) (hd : inBounds dRow dCol)
    (hne : ¬ (dRow = sRow ∧ dCol = sCol)) :
    ∃ v, p.isLegalPieceMove sRow sCol dRow dCol board = some v := by
  obtain ⟨vl, hl, _⟩ := isMoveLinear_spec board hs hd
  obtain ⟨vd, hdg, _⟩ := isMoveDiagonal_spec board hs hd hne
  unfold GamePiece.isLegalPieceMove
  cases p.kind with
  | King =>
    simp only [King.isLegalPieceMove]
    split <;> exact ⟨_, rfl⟩
  | Queen =>
    simp only [Queen.isLegalPieceMove, hl, hdg]
    cases vl <;> cases vd <;> exact ⟨_, rfl⟩
  | Bishop => exact ⟨vd, hdg⟩
  | Knight =>
    simp only [Knight.isLegalPieceMove]
    split_ifs <;> exact ⟨_, rfl⟩
  | Rook => exact ⟨vl, hl⟩
  | Pawn =>
    simp only [Pawn.isLegalPieceMove, readCell_inBounds board hd]
    cases board (idx dRow) (idx dCol) with
    | none =>
      simp only []
      split_ifs <;> exact ⟨_, rfl⟩
    | some q =>
      simp only []
      split_ifs <;> exact ⟨_, rfl⟩

/-- `isLegalMove` of the piece of a square of the board, for a destination on the
grid, returns. -/
theorem isLegalMove_isSome {board : Board} {p : GamePiece} {sRow sCol dRow dCol : Int}
    (hp : readCell board sRow sCol = some (some p)) (hd : inBounds dRow dCol) :
    ∃ v, p.isLegalMove sRow sCol dRow dCol board = some v := by
  have hs := inBounds_of_readCell hp
  by_cases hne : dRow = sRow ∧ dCol = sCol
  · obtain ⟨h1, h2⟩ := hne
    subst h1 h2
    exact ⟨false, isLegalMove_self hp⟩
  · obtain ⟨v, hv⟩ := isLegalPieceMove_isSome board p hs hd hne
    unfold GamePiece.isLegalMove
    rw [readCell_inBounds board hd]
    cases board (idx dRow) (idx dCol) with
    | none => exact ⟨v, hv⟩
    | some q =>
      simp only []
      split
      · exact ⟨v, hv⟩
      · exact ⟨false, rfl⟩

/-- A move attempt on two squares of the grid is rejected or accepted. -/
theorem rejects_or_accepts_of_inBounds (g : Chess) {sRow sCol dRow dCol : Int}
    (hs : inBounds sRow sCol) (hd : inBounds dRow dCol) :
    g.rejects sRow sCol dRow dCol ∨ g.accepts sRow sCol dRow dCol := by
  have hx := readCell_inBounds g.chessBoard hs
  cases hc : g.chessBoard (idx sRow) (idx sCol) with
  | none =>
    rw [hc] at hx
    exact Or.inl (Or.inl hx)
  | some p =>
    rw [hc] at hx
    by_cases hcol : p.getColor = g.playerTurn
    · obtain ⟨v, hv⟩ := isLegalMove_isSome hx hd
      cases v with
      | false => exact Or.inl (Or.inr ⟨p, hx, Or.inr hv⟩)
      | true => exact Or.inr ⟨p, hx, hcol, hv⟩
    · exact Or.inl (Or.inr ⟨p, hx, Or.inl hcol⟩)

/-- A move attempt on two squares of the grid gives a state. -/
theorem advanceGame_isSome (g : Chess) {sRow sCol dRow dCol : Int}
    (hs : inBounds sRow sCol) (hd : inBounds dRow dCol) :
    ∃ g1, g.advanceGame sRow sCol dRow dCol = some g1 := by
  rcases rejects_or_accepts_of_inBounds g hs hd with hr | ha
  · exact ⟨g, advanceGame_of_rejects hr⟩
  · obtain ⟨_, g1, _, hadv, _⟩ := advanceGame_of_accepts ha
    exact ⟨g1, hadv⟩

/-- C20: a read of the grid has no value exactly when its indices are outside `0..7`,
and every function passes a missing value on.  For two different squares of the grid
`isMoveLinear` and `isMoveDiagonal` have a value, so all their reads are inside the
grid, and the loop of `isMoveDiagonal` is through within seven tests of its
condition, fewer than 8 rounds.  A move attempt on two squares of the grid, the same
or not, has a value as well: none of its reads and writes leaves the grid. -/
theorem trace_safety (g : Chess) (sRow sCol dRow dCol : Int)
    (hs : inBounds sRow sCol) (hd : inBounds dRow dCol) :
    (∀ r c, readCell g.chessBoard r c = none ↔ ¬ inBounds r c) ∧
    (¬ (dRow = sRow ∧ dCol = sCol) →
      (∃ v, GamePiece.isMoveLinear sRow sCol dRow dCol g.chessBoard = some v) ∧
      ∃ v, GamePiece.isMoveDiagonalFuel 7 sRow sCol dRow dCol g.chessBoard = some v ∧
        GamePiece.isMoveDiagonal sRow sCol dRow dCol g.chessBoard = some v) ∧
    ∃ g1, g.advanceGame sRow sCol dRow dCol = some g1 := by
  refine ⟨?_, ?_, advanceGame_isSome g hs hd⟩
  · intro r c
    constructor
    · intro h hb
      rw [readCell_inBounds _ hb] at h
      exact Option.noConfusion h
    · exact readCell_outside _
  · intro hne
    obtain ⟨vl, hl, _⟩ := isMoveLinear_spec g.chessBoard hs hd
    obtain ⟨v, hv⟩ := isMoveDiagonalFuel_seven g.chessBoard hs hd hne
    exact ⟨⟨vl, hl⟩, v, hv, isMoveDiagonal_of_seven _ hv⟩

/-- The longest diagonal, from (7,0) to (0,7), on the empty grid: the trace is `true`
with fuel 7 and has no value with fuel 6.  In the starting state the attempt on these
two squares gives a state. -/
theorem trace_safety_witness :
    GamePiece.isMoveDiagonalFuel 7 7 0 0 7 (fun _ _ => none) = some true ∧
      GamePiece.isMoveDiagonalFuel 6 7 0 0 7 (fun _ _ => none) = none ∧
      (∃ v, GamePiece.isMoveDiagonalFuel 7 7 0 0 7 (fun _ _ => none) = some v ∧
        GamePiece.isMoveDiagonal 7 0 0 7 (fun _ _ => none) = some v) ∧
      ∃ g1, Chess.new.advanceGame 7 0 0 7 = some g1 :=
  ⟨by decide, by decide,
    ((trace_safety ⟨fun _ _ => none, Color.W⟩ 7 0 0 7 (by decide) (by decide)).2.1
      (by decide)).2,
    (trace_safety Chess.new 7 0 0 7 (by decide) (by decide)).2.2⟩

/-! ## Squares and pieces across a move -/

/-- The value of `isOccupied` on a cell read from the grid. -/
theorem isOccupied_iff (board : Board) {r c : Int} (h : inBounds r c) :
    isOccupied (board (idx r) (idx c)) = true ↔ ∃ q, readCell board r c = some (some q) := by
  rw [readCell_inBounds board h]
  cases board (idx r) (idx c) with
  | none => simp [isOccupied]
  | some q => simp [isOccupied]

/-- A move attempt that gives a state does not add a piece. -/
theorem card_occupied_le {g g1 : Chess} {sRow sCol dRow dCol : Int}
    (hadv : g.advanceGame sRow sCol dRow dCol = some g1) :
    (squaresWhere isOccupied g1.chessBoard).card ≤
      (squaresWhere isOccupied g.chessBoard).card := by
  rcases rejects_or_accepts hadv with ⟨hr, _⟩ | ⟨ha, _⟩
  · rw [advanceGame_of_rejects hr] at hadv
    rw [← Option.some.inj hadv]
  · have h := card_squaresWhere_of_accepts isOccupied rfl ha hadv
    omega

/-- A sequence of move attempts that gives a state does not add a piece. -/
theorem card_occupied_attempts (l : List (Int × Int × Int × Int)) :
    ∀ g g1 : Chess, g.attempts l = some g1 →
      (squaresWhere isOccupied g1.chessBoard).card ≤
        (squaresWhere isOccupied g.chessBoard).card := by
  induction l with
  | nil =>
    intro g g1 h
    rw [← Option.some.inj h]
  | cons a rest ih =>
    intro g g1 h
    obtain ⟨sRow, sCol, dRow, dCol⟩ := a
    rw [Chess.attempts] at h
    cases hadv : g.advanceGame sRow sCol dRow dCol with
    | none => simp [hadv] at h
    | some g2 =>
      simp only [hadv] at h
      exact le_trans (ih g2 g1 h) (card_occupied_le hadv)

/-- C15: a move attempt on two squares of the grid gives a state with at most as many
occupied squares as before: one fewer when the attempt is accepted and its
destination was occupied, as many in every other case.  So a sequence of attempts
never raises the number of occupied squares. -/
theorem occupied_count (g : Chess) (sRow sCol dRow dCol : Int)
    (hs : inBounds sRow sCol) (hd : inBounds dRow dCol) :
    (∃ g1, g.advanceGame sRow sCol dRow dCol = some g1 ∧
      (squaresWhere isOccupied g1.chessBoard).card ≤
        (squaresWhere isOccupied g.chessBoard).card ∧
      ((g.accepts sRow sCol dRow dCol ∧
          ∃ q, readCell g.chessBoard dRow dCol = some (some q)) →
        (squaresWhere isOccupied g1.chessBoard).card + 1 =
          (squaresWhere isOccupied g.chessBoard).card) ∧
      (¬ (g.accepts sRow sCol dRow dCol ∧
          ∃ q, readCell g.chessBoard dRow dCol = some (some q)) →
        (squaresWhere isOccupied g1.chessBoard).card =
          (squaresWhere isOccupied g.chessBoard).card)) ∧
    (∀ (l : List (Int × Int × Int × Int)) (g2 : Chess), g.attempts l = some g2 →
      (squaresWhere isOccupied g2.chessBoard).card ≤
        (squaresWhere isOccupied g.chessBoard).card) := by
  refine ⟨?_, fun l g2 h => card_occupied_attempts l g g2 h⟩
  obtain ⟨g1, hadv⟩ := advanceGame_isSome g hs hd
  refine ⟨g1, hadv, card_occupied_le hadv, ?_, ?_⟩
  · rintro ⟨ha, hocc⟩
    have h := card_squaresWhere_of_accepts isOccupied rfl ha hadv
    rw [if_pos ((isOccupied_iff g.chessBoard hd).mpr hocc)] at h
    exact h
  · intro hn
    rcases rejects_or_accepts hadv with ⟨hr, _⟩ | ⟨ha, _⟩
    · rw [advanceGame_of_rejects hr] at hadv
      rw [← Option.some.inj hadv]
    · have h := card_squaresWhere_of_accepts isOccupied rfl ha hadv
      have hocc : ¬ isOccupied (g.chessBoard (idx dRow) (idx dCol)) = true :=
        fun ho => hn ⟨ha, (isOccupied_iff g.chessBoard hd).mp ho⟩
      rw [if_neg hocc] at h
      exact h

/-- The starting state has 32 occupied squares, and the accepted attempt (6,0) to
(5,0), onto an empty square, gives a state with no more of them.  After
the four Pawn attempts that bring a White Pawn to (4,0) and a Black one to (3,1),
still 32 squares are occupied, and the capture (4,0) to (3,1) leaves 31. -/
theorem occupied_count_witness :
    (squaresWhere isOccupied Chess.new.chessBoard).card = 32 ∧
      (∃ g1, Chess.new.advanceGame 6 0 5 0 = some g1 ∧
        (squaresWhere isOccupied g1.chessBoard).card ≤
          (squaresWhere isOccupied Chess.new.chessBoard).card ∧
        ((Chess.new.accepts 6 0 5 0 ∧
            ∃ q, readCell Chess.new.chessBoard 5 0 = some (some q)) →
          (squaresWhere isOccupied g1.chessBoard).card + 1 =
            (squaresWhere isOccupied Chess.new.chessBoard).card) ∧
        (¬ (Chess.new.accepts 6 0 5 0 ∧
            ∃ q, readCell Chess.new.chessBoard 5 0 = some (some q)) →
          (squaresWhere isOccupied g1.chessBoard).card =
            (squaresWhere isOccupied Chess.new.chessBoard).card)) ∧
      (Chess.new.attempts [(6, 0, 5, 0), (1, 1, 2, 1), (5, 0, 4, 0), (2, 1, 3, 1)]).map
        (fun g => (squaresWhere isOccupied g.chessBoard).card) = some 32 ∧
      (Chess.new.attempts [(6, 0, 5, 0), (1, 1, 2, 1), (5, 0, 4, 0), (2, 1, 3, 1),
        (4, 0, 3, 1)]).map
        (fun g => (squaresWhere isOccupied g.chessBoard).card) = some 31 :=
  ⟨by decide, (occupied_count Chess.new 6 0 5 0 (by decide) (by decide)).1,
    by decide, by decide⟩

/-- C14, as the code has it: an accepted attempt makes exactly one square newly
empty, the source; the squares that were empty and are occupied after it are the
destination alone when the destination was empty, and none when the destination
held a piece (the piece taken). -/
theorem newly_occupied_and_empty (g : Chess) (sRow sCol dRow dCol : Int)
    (h : g.accepts sRow sCol dRow dCol) :
    ∃ g1, g.advanceGame sRow sCol dRow dCol = some g1 ∧
      newlyEmpty g.chessBoard g1.chessBoard = {(idx sRow, idx sCol)} ∧
      newlyOccupied g.chessBoard g1.chessBoard =
        if isOccupied (g.chessBoard (idx dRow) (idx dCol)) = true then ∅
        else {(idx dRow, idx dCol)} := by
  obtain ⟨p, g1, hadv, _, _, _, _, hidx, hs, _, hs1, hd1, hrest⟩ :=
    advanceGame_cells_of_accepts h
  refine ⟨g1, hadv, ?_, ?_⟩
  · ext sq
    simp only [newlyEmpty, Finset.mem_filter, Finset.mem_univ, true_and,
      Finset.mem_singleton]
    by_cases h1 : sq = (idx sRow, idx sCol)
    · subst h1
      simp [hs, hs1, isOccupied]
    · by_cases h2 : sq = (idx dRow, idx dCol)
      · subst h2
        simp [hd1, isOccupied, h1]
      · rw [hrest sq h1 h2]
        simp only [h1, iff_false, not_and]
        intro h3
        rw [h3]
        exact Bool.noConfusion
  · ext sq
    by_cases h1 : sq = (idx sRow, idx sCol)
    · subst h1
      have hne : ¬ (idx sRow, idx sCol) = (idx dRow, idx dCol) := hidx
      simp only [newlyOccupied, Finset.mem_filter, Finset.mem_univ, true_and, hs, hs1,
        isOccupied]
      split_ifs <;> simp [hne]
    · by_cases h2 : sq = (idx dRow, idx dCol)
      · subst h2
        simp only [newlyOccupied, Finset.mem_filter, Finset.mem_univ, true_and, hd1]
        have ht : isOccupied (some p) = true := rfl
        by_cases ho : isOccupied (g.chessBoard (idx dRow) (idx dCol)) = true
        · simp [ho]
        · have hf : isOccupied (g.chessBoard (idx dRow) (idx dCol)) = false :=
            Bool.eq_false_iff.mpr ho
          rw [if_neg ho]
          simp [hf, ht]
      · simp only [newlyOccupied, Finset.mem_filter, Finset.mem_univ, true_and,
          hrest sq h1 h2]
        have hcontra : ¬ (isOccupied (g.chessBoard sq.1 sq.2) = false ∧
            isOccupied (g.chessBoard sq.1 sq.2) = true) := by
          rintro ⟨a, b⟩
          rw [a] at b
          exact Bool.noConfusion b
        split_ifs <;> simp [hcontra, h2]

/-- The accepted attempt (6,0) to (5,0) in the starting state: (6,0) is the one square
newly empty and (5,0) the one square newly occupied. -/
theorem newly_occupied_and_empty_witness :
    Chess.new.accepts 6 0 5 0 ∧
      ∃ g1, Chess.new.advanceGame 6 0 5 0 = some g1 ∧
        newlyEmpty Chess.new.chessBoard g1.chessBoard = {(idx 6, idx 0)} ∧
        newlyOccupied Chess.new.chessBoard g1.chessBoard =
          if isOccupied (Chess.new.chessBoard (idx 5) (idx 0)) = true then ∅
          else {(idx 5, idx 0)} :=
  ⟨by decide, newly_occupied_and_empty Chess.new 6 0 5 0 (by decide)⟩

/-- C14 as stated fails on a capture.  After the four Pawn attempts that bring a White
Pawn to (4,0) and a Black one to (3,1), the attempt (4,0) to (3,1) is accepted; its
destination was occupied before and is occupied after, so no square is newly
occupied: the set of these squares is empty, not the destination alone. -/
theorem newly_occupied_counterexample :
    (Chess.new.attempts [(6, 0, 5, 0), (1, 1, 2, 1), (5, 0, 4, 0), (2, 1, 3, 1)]).bind
        (fun g => (g.advanceGame 4 0 3 1).map
          (fun g1 => (decide (g.accepts 4 0 3 1), readCell g.chessBoard 3 1,
            readCell g1.chessBoard 3 1,
            decide (newlyOccupied g.chessBoard g1.chessBoard = ∅),
            decide (newlyOccupied g.chessBoard g1.chessBoard = {(3, 1)})))) =
      some (true, some (some ⟨Color.B, Kind.Pawn⟩), some (some ⟨Color.W, Kind.Pawn⟩),
        true, false) := by
  decide

/-! ## The traces in both directions -/

/-- The squares between two squares of a line are the same from either end. -/
theorem onLineBetween_comm (sRow sCol dRow dCol r c : Int) :
    onLineBetween sRow sCol dRow dCol r c ↔ onLineBetween dRow dCol sRow sCol r c := by
  unfold onLineBetween between
  constructor <;> intro h <;> omega

/-- The squares between two squares of a diagonal are the same from either end. -/
theorem onDiagonalBetween_comm (sRow sCol dRow dCol r c : Int)
    (hdiag : |dRow - sRow| = |dCol - sCol|) :
    onDiagonalBetween sRow sCol dRow dCol r c ↔
      onDiagonalBetween dRow dCol sRow sCol r c := by
  unfold onDiagonalBetween between
  rw [abs_eq_abs] at hdiag
  rw [abs_eq_abs, abs_eq_abs]
  constructor <;> intro h <;> omega

/-- Two results that are `true` under the same condition are the same result. -/
theorem some_eq_some_of_iff {a b : Option Bool} {v w : Bool} {P Q : Prop}
    (ha : a = some v) (hb : b = some w) (hv : v = true ↔ P) (hw : w = true ↔ Q)
    (hPQ : P ↔ Q) : a = b := by
  rw [ha, hb]
  have h : v = true ↔ w = true := hv.trans (hPQ.trans hw.symm)
  cases v <;> cases w <;> simp_all

/-- C16: on two different squares of the grid `isMoveLinear` gives the same from the
first to the second as from the second to the first, and so does `isMoveDiagonal`. -/
theorem trace_symmetric (board : Board) (sRow sCol dRow dCol : Int)
    (hs : inBounds sRow sCol) (hd : inBounds dRow dCol)
    (hne : ¬ (dRow = sRow ∧ dCol = sCol)) :
    GamePiece.isMoveLinear sRow sCol dRow dCol board =
        GamePiece.isMoveLinear dRow dCol sRow sCol board ∧
      GamePiece.isMoveDiagonal sRow sCol dRow dCol board =
        GamePiece.isMoveDiagonal dRow dCol sRow sCol board := by
  have hne1 : ¬ (sRow = dRow ∧ sCol = dCol) := fun h => hne ⟨h.1.symm, h.2.symm⟩
  constructor
  · obtain ⟨v, hv, hiff⟩ := isMoveLinear_spec board hs hd
    obtain ⟨w, hw, hiff1⟩ := isMoveLinear_spec board hd hs
    refine some_eq_some_of_iff hv hw hiff hiff1 ?_
    constructor
    · rintro ⟨h1, h2⟩
      exact ⟨by omega, fun r c h => h2 r c ((onLineBetween_comm _ _ _ _ r c).mpr h)⟩
    · rintro ⟨h1, h2⟩
      exact ⟨by omega, fun r c h => h2 r c ((onLineBetween_comm _ _ _ _ r c).mpr h)⟩
  · obtain ⟨v, hv, hiff⟩ := isMoveDiagonal_spec board hs hd hne
    obtain ⟨w, hw, hiff1⟩ := isMoveDiagonal_spec board hd hs hne1
    refine some_eq_some_of_iff hv hw hiff hiff1 ?_
    constructor
    · rintro ⟨h1, h2, h3⟩
      have h1s : |sRow - dRow| = |sCol - dCol| := by
        rw [abs_sub_comm sRow dRow, abs_sub_comm sCol dCol]
        exact h1
      exact ⟨h1s, by omega,
        fun r c h => h3 r c ((onDiagonalBetween_comm _ _ _ _ r c h1s).mp h)⟩
    · rintro ⟨h1, h2, h3⟩
      have h1s : |dRow - sRow| = |dCol - sCol| := by
        rw [abs_sub_comm dRow sRow, abs_sub_comm dCol sCol]
        exact h1
      exact ⟨h1s, by omega,
        fun r c h => h3 r c ((onDiagonalBetween_comm _ _ _ _ r c h1s).mp h)⟩

/-- On the board after the Pawn attempt (6,3) to (5,3) the diagonal from (7,2) to
(3,6) is free, in both directions, and the column from (7,3) to (2,3) is blocked by
the Pawn of (5,3), in both directions. -/
theorem trace_symmetric_witness :
    ∃ g1, Chess.new.advanceGame 6 3 5 3 = some g1 ∧
      GamePiece.isMoveDiagonal 7 2 3 6 g1.chessBoard = some true ∧
      GamePiece.isMoveDiagonal 3 6 7 2 g1.chessBoard = some true ∧
      GamePiece.isMoveLinear 7 3 2 3 g1.chessBoard = some false ∧
      GamePiece.isMoveLinear 2 3 7 3 g1.chessBoard = some false ∧
      (GamePiece.isMoveLinear 7 3 2 3 g1.chessBoard =
          GamePiece.isMoveLinear 2 3 7 3 g1.chessBoard ∧
        GamePiece.isMoveDiagonal 7 3 2 3 g1.chessBoard =
          GamePiece.isMoveDiagonal 2 3 7 3 g1.chessBoard) :=
  ⟨_, rfl, by decide, by decide, by decide, by decide,
    trace_symmetric _ 7 3 2 3 (by decide) (by decide) (by decide)⟩

/-! ## The starting state -/

/-- C17: the board the constructor builds has the 8 White Pawns on row 6 and the 8
Black Pawns on row 1; on row 7 in White and on row 0 in Black the kinds Rook, Knight,
Bishop, King, Queen, Bishop, Knight, Rook in the columns 0 to 7; nothing on the rows 2
to 5; so 16 pieces of each side, 32 in all.  A new game has this board and White to
move. -/
theorem starting_layout :
    (∀ c : Fin 8, GameBoard.new 6 c = some ⟨Color.W, Kind.Pawn⟩) ∧
      (∀ c : Fin 8, GameBoard.new 1 c = some ⟨Color.B, Kind.Pawn⟩) ∧
      (List.finRange 8).map (fun c => GameBoard.new 7 c) =
        [Kind.Rook, Kind.Knight, Kind.Bishop, Kind.King, Kind.Queen, Kind.Bishop,
          Kind.Knight, Kind.Rook].map (fun k => some ⟨Color.W, k⟩) ∧
      (List.finRange 8).map (fun c => GameBoard.new 0 c) =
        [Kind.Rook, Kind.Knight, Kind.Bishop, Kind.King, Kind.Queen, Kind.Bishop,
          Kind.Knight, Kind.Rook].map (fun k => some ⟨Color.B, k⟩) ∧
      (∀ r c : Fin 8, 2 ≤ r.val → r.val ≤ 5 → GameBoard.new r c = none) ∧
      (squaresWhere (isOfColor Color.W) GameBoard.new).card = 16 ∧
      (squaresWhere (isOfColor Color.B) GameBoard.new).card = 16 ∧
      (squaresWhere isOccupied GameBoard.new).card = 32 ∧
      Chess.new.chessBoard = GameBoard.new ∧ Chess.new.playerTurn = Color.W := by
  refine ⟨by decide, by decide, by decide, by decide, by decide, by decide, by decide,
    by decide, rfl, rfl⟩

/-! ## The input -/

/-- The codes of the four `char`s that bound the two ranges. -/
theorem charCode_bounds :
    charCode 'A' = 65 ∧ charCode 'H' = 72 ∧ charCode '1' = 49 ∧ charCode '8' = 56 := by
  decide

/-- The check on two lines of at least 2 `char`s each: the test of the four `char`s. -/
theorem goodInput_cons (s0 s1 d0 d1 : Char) (srest drest : List Char) :
    goodInput (s0 :: s1 :: srest) (d0 :: d1 :: drest) =
      if charCode s0 ≥ 65 ∧ charCode s0 ≤ 72 ∧ charCode s1 ≥ 49 ∧ charCode s1 ≤ 56 ∧
          charCode d0 ≥ 65 ∧ charCode d0 ≤ 72 ∧ charCode d1 ≥ 49 ∧ charCode d1 ≤ 56 then
        some true
      else some false := by
  have h1 : ¬ ((s0 :: s1 :: srest).length < 2) := by simp
  have h2 : ¬ ((d0 :: d1 :: drest).length < 2) := by simp
  unfold goodInput
  rw [if_neg h1, if_neg h2]
  simp only [List.getElem?_cons_zero, List.getElem?_cons_succ]

/-- A line of at least 2 `char`s names a square iff its first two `char`s are in the
two ranges. -/
theorem namesSquare_cons (c0 c1 : Char) (rest : List Char) :
    namesSquare (c0 :: c1 :: rest) ↔
      charCode c0 ≥ 65 ∧ charCode c0 ≤ 72 ∧ charCode c1 ≥ 49 ∧ charCode c1 ≤ 56 := by
  obtain ⟨hA, hH, h1, h8⟩ := charCode_bounds
  unfold namesSquare
  rw [hA, hH, h1, h8]
  constructor
  · rintro ⟨_, a, b, ha, hb, h⟩
    simp at ha hb
    subst ha hb
    omega
  · intro h
    exact ⟨by simp, c0, c1, by simp, by simp, by omega⟩

/-- A line of fewer than 2 `char`s names no square. -/
theorem namesSquare_short (text : List Char) (h : text.length < 2) : ¬ namesSquare text := by
  rintro ⟨h2, _⟩
  omega

/-- C18: the check of `advanceGame` has a value on every pair of input lines, and it
passes a pair iff each line has at least 2 `char`s, the first in `'A'..'H'` and the
second in `'1'..'8'`.  For a pair that passes, the indices handed to the move attempt
are: column the first `char` minus `'A'`, row the second `char` minus `'1'`, and all
four lie in `0..7`. -/
theorem goodInput_iff (source dest : List Char) :
    (∃ v, goodInput source dest = some v) ∧
    (goodInput source dest = some true ↔ namesSquare source ∧ namesSquare dest) ∧
    (goodInput source dest = some true →
      ∃ s0 s1 d0 d1, source[0]? = some s0 ∧ source[1]? = some s1 ∧
        dest[0]? = some d0 ∧ dest[1]? = some d1 ∧
        inputSquares source dest =
          some (charCode s1 - charCode '1', charCode s0 - charCode 'A',
            charCode d1 - charCode '1', charCode d0 - charCode 'A') ∧
        inBounds (charCode s1 - charCode '1') (charCode s0 - charCode 'A') ∧
        inBounds (charCode d1 - charCode '1') (charCode d0 - charCode 'A')) := by
  obtain ⟨hA, hH, h1, h8⟩ := charCode_bounds
  by_cases hs : source.length < 2
  · have hg : goodInput source dest = some false := by
      unfold goodInput
      rw [if_pos hs]
    rw [hg]
    refine ⟨⟨false, rfl⟩, ?_, ?_⟩
    · constructor
      · intro h
        exact Bool.noConfusion (Option.some.inj h)
      · intro h
        exact absurd h.1 (namesSquare_short source hs)
    · intro h
      exact Bool.noConfusion (Option.some.inj h)
  · by_cases hd : dest.length < 2
    · have hg : goodInput source dest = some false := by
        unfold goodInput
        rw [if_neg hs, if_pos hd]
      rw [hg]
      refine ⟨⟨false, rfl⟩, ?_, ?_⟩
      · constructor
        · intro h
          exact Bool.noConfusion (Option.some.inj h)
        · intro h
          exact absurd h.2 (namesSquare_short dest hd)
      · intro h
        exact Bool.noConfusion (Option.some.inj h)
    · rcases source with _ | ⟨s0, _ | ⟨s1, srest⟩⟩
      · exact absurd (by simp) hs
      · exact absurd (by simp) hs
      · rcases dest with _ | ⟨d0, _ | ⟨d1, drest⟩⟩
        · exact absurd (by simp) hd
        · exact absurd (by simp) hd
        · rw [goodInput_cons, namesSquare_cons, namesSquare_cons]
          by_cases hg : charCode s0 ≥ 65 ∧ charCode s0 ≤ 72 ∧ charCode s1 ≥ 49 ∧
              charCode s1 ≤ 56 ∧ charCode d0 ≥ 65 ∧ charCode d0 ≤ 72 ∧ charCode d1 ≥ 49 ∧
              charCode d1 ≤ 56
          · rw [if_pos hg]
            refine ⟨⟨true, rfl⟩, ⟨fun _ => by omega, fun _ => rfl⟩, fun _ => ?_⟩
            refine ⟨s0, s1, d0, d1, by simp, by simp, by simp, by simp, ?_, ?_, ?_⟩
            · rw [hA, h1]
              simp only [inputSquares, List.getElem?_cons_zero, List.getElem?_cons_succ]
            · unfold inBounds
              omega
            · unfold inBounds
              omega
          · rw [if_neg hg]
            refine ⟨⟨false, rfl⟩, ?_, ?_⟩
            · constructor
              · intro h
                exact Bool.noConfusion (Option.some.inj h)
              · intro h
                exact absurd (by omega) hg
            · intro h
              exact Bool.noConfusion (Option.some.inj h)

/-- The pair `A1`, `H8` passes the check and gives the squares (0,0) and (7,7); the
lines `I1`, `A9`, `A0`, `a1` and `A` fail it. -/
theorem goodInput_iff_witness :
    goodInput "A1".toList "H8".toList = some true ∧
      inputSquares "A1".toList "H8".toList = some (0, 0, 7, 7) ∧
      goodInput "I1".toList "H8".toList = some false ∧
      goodInput "A9".toList "H8".toList = some false ∧
      goodInput "A1".toList "A0".toList = some false ∧
      goodInput "a1".toList "H8".toList = some false ∧
      goodInput "A".toList "H8".toList = some false ∧
      ∃ s0 s1 d0 d1, "A1".toList[0]? = some s0 ∧ "A1".toList[1]? = some s1 ∧
        "H8".toList[0]? = some d0 ∧ "H8".toList[1]? = some d1 ∧
        inputSquares "A1".toList "H8".toList =
          some (charCode s1 - charCode '1', charCode s0 - charCode 'A',
            charCode d1 - charCode '1', charCode d0 - charCode 'A') ∧
        inBounds (charCode s1 - charCode '1') (charCode s0 - charCode 'A') ∧
        inBounds (charCode d1 - charCode '1') (charCode d0 - charCode 'A') :=
  ⟨by decide, by decide, by decide, by decide, by decide, by decide, by decide,
    (goodInput_iff "A1".toList "H8".toList).2.2 (by decide)⟩
